import Mathlib

/-!
Verification of the excel-diff-tools core algorithms.

This file gives a shallow embedding of the normalization + diff layer of the
repository (`src/core/data_normalizer.py`, `src/core/diff_engine.py`,
`src/core/processors/monthly_sales/diff_engine.py`) and proves the spec claims
about it.

Modelling conventions:
* Normalized cell values are `Option String` (`none` models `pd.NA`).
* Raw cell values are `PyVal` (NA, text, int, float, timestamp).
* Python floats are modelled as exact decimal rationals `m * 10 ^ (-e)`
  (a pair `(m : Int, e : Nat)`); parsing and printing are exact, so binary
  rounding, overflow of `float(...)`, and the scientific-notation switch of
  `str(float)` are not modelled.  Numeric literals are modelled over ASCII
  digits; underscore digit grouping and non-ASCII digits are not modelled.
* Python `dict` preserves insertion order and is modelled by an ordered
  association list; Python `set` iteration order is unspecified and is
  modelled by an explicit enumeration parameter.
* A raised exception is modelled as `Except.error ()`.
-/

namespace ExcelDiff

/-- ASCII whitespace characters recognised by Python `str.strip()`. -/
def pyWs (c : Char) : Bool :=
  c = ' ' ∨ c = '\t' ∨ c = '\n' ∨ c = '\r' ∨ c = '\x0b' ∨ c = '\x0c'

/-- `str.strip()` on a character list: drop whitespace at both ends. -/
def stripChars (l : List Char) : List Char :=
  ((l.dropWhile pyWs).reverse.dropWhile pyWs).reverse

/-- `str.strip()` on strings. -/
def pyStrip (s : String) : String :=
  ⟨stripChars s.data⟩

/-- Numeric value of an ASCII digit character. -/
def digitVal (c : Char) : Nat :=
  c.toNat - 48

/-- ASCII digit character of a value `< 10`. -/
def digitChar (n : Nat) : Char :=
  Char.ofNat (48 + n)

/-- Value of a digit string read left to right (leading zeros allowed). -/
def digitsToNat (l : List Char) : Nat :=
  l.foldl (fun a c => a * 10 + digitVal c) 0

/-- Decimal digits of a natural number, most significant first (`str(n)`). -/
def natToDigits (n : Nat) : List Char :=
  if _h : n < 10 then [digitChar n]
  else natToDigits (n / 10) ++ [digitChar (n % 10)]
decreasing_by exact Nat.div_lt_self (by omega) (by omega)

/-- `str` of a natural number. -/
def natStr (n : Nat) : String :=
  ⟨natToDigits n⟩

/-- `str` of a Python int: minimal decimal form with optional leading minus. -/
def intStr (k : Int) : String :=
  if k < 0 then "-" ++ natStr k.natAbs else natStr k.natAbs

/-- Parse a nonempty all-digit character list, else fail. -/
def natPart (l : List Char) : Option Nat :=
  if l ≠ [] ∧ l.all Char.isDigit then some (digitsToNat l) else none

/-- Python `int(s)` on a stripped character list: optional sign then decimal
digits.  Underscore grouping and non-ASCII digits are not modelled. -/
def pyIntParseChars : List Char → Option Int
  | [] => none
  | c :: rest =>
    if c = '+' then (natPart rest).map Int.ofNat
    else if c = '-' then (natPart rest).map (fun n => -(n : Int))
    else (natPart (c :: rest)).map Int.ofNat

/-- Python `int(s)` on a stripped string. -/
def pyIntParse (s : String) : Option Int :=
  pyIntParseChars s.data


/-- Split a character list at the first exponent marker `e`/`E`
(mantissa, optional exponent part). -/
def splitOnExp : List Char → List Char × Option (List Char)
  | [] => ([], none)
  | c :: cs =>
    if c = 'e' ∨ c = 'E' then ([], some cs)
    else
      let p := splitOnExp cs
      (c :: p.1, p.2)

/-- Split a character list at the first `.` (integer part, optional fraction). -/
def splitDot : List Char → List Char × Option (List Char)
  | [] => ([], none)
  | c :: cs =>
    if c = '.' then ([], some cs)
    else
      let p := splitDot cs
      (c :: p.1, p.2)

/-- Split an optional leading sign: returns (negative?, rest). -/
def splitSign (l : List Char) : Bool × List Char :=
  match l with
  | [] => (false, [])
  | c :: cs =>
    if c = '+' then (false, cs)
    else if c = '-' then (true, cs)
    else (false, c :: cs)

/-- Parse the mantissa digits `ddd[.ddd]` of a float literal: returns the
unsigned value read without the dot together with the fraction length. -/
def parseMantissa (l : List Char) : Option (Nat × Nat) :=
  let p := splitDot l
  let frac := p.2.getD []
  if (p.1 ++ frac) ≠ [] ∧ (p.1 ++ frac).all Char.isDigit then
    some (digitsToNat (p.1 ++ frac), frac.length)
  else none

/-- Parse an exponent part `[+|-]ddd`. -/
def parseExpPart (l : List Char) : Option Int :=
  let p := splitSign l
  (natPart p.2).map (fun n => if p.1 then -(n : Int) else (n : Int))

/-- Apply an exponent to a decimal representation `m * 10 ^ (-e)`. -/
def applyExp (m : Int) (e : Nat) (z : Int) : Int × Nat :=
  if z ≤ (e : Int) then (m, ((e : Int) - z).toNat) else (m * 10 ^ (z - e).toNat, 0)

/-- Python `float(s)` on a stripped string, as an exact decimal representation
`(m, e)` meaning `m * 10 ^ (-e)`.  The special values `inf`/`nan` and
underscore grouping are not modelled (they cannot reach the modelled call
sites: the normalizer only calls `float` on strings containing `.`, and the
sort only calls it on digit/dot/minus strings). -/
def pyFloatDecChars (l : List Char) : Option (Int × Nat) :=
  let q := splitOnExp l
  let sgn := splitSign q.1
  match parseMantissa sgn.2 with
  | none => none
  | some (m0, e0) =>
    let m : Int := if sgn.1 then -(m0 : Int) else (m0 : Int)
    match q.2 with
    | none => some (m, e0)
    | some ex =>
      match parseExpPart ex with
      | none => none
      | some z => some (applyExp m e0 z)

/-- Python `float(s)` on a stripped string, as an exact decimal pair. -/
def pyFloatDec (s : String) : Option (Int × Nat) :=
  pyFloatDecChars s.data

/-- Exact rational value of a decimal representation `m * 10 ^ (-e)`
(written with `mkRat` so that it evaluates by kernel reduction). -/
def decVal (p : Int × Nat) : ℚ :=
  mkRat p.1 (10 ^ p.2)

/-- Python `float(s)` as an exact rational (for sort keys). -/
def pyFloatVal (s : String) : Option ℚ :=
  (pyFloatDec s).map decVal

/-- Strip trailing decimal zeros: canonical form of `m * 10 ^ (-e)`.
`float.is_integer()` holds exactly when the canonical exponent is `0`. -/
def canonDec (m : Int) : Nat → Int × Nat
  | 0 => (m, 0)
  | e + 1 => if m % 10 = 0 then canonDec (m / 10) e else (m, e + 1)

/-- The digit block of `str(float)` for value `m * 10 ^ (-e)`: digits of `|m|`
left-padded with zeros to at least `e + 1` digits. -/
def decDigits (m : Int) (e : Nat) : List Char :=
  List.replicate (e + 1 - (natToDigits m.natAbs).length) '0' ++ natToDigits m.natAbs

/-- `str(float)` for a non-integral canonical decimal `m * 10 ^ (-e)` (`e > 0`):
sign, integer digits, `.`, fraction digits.  Python's switch to scientific
notation for very small/large magnitudes is not modelled. -/
def renderDec (m : Int) (e : Nat) : String :=
  ⟨(if m < 0 then ['-'] else []) ++
    (decDigits m e).take ((decDigits m e).length - e) ++
    '.' :: (decDigits m e).drop ((decDigits m e).length - e)⟩

/-- A raw cell value coming from the external reader
(`pd.NA`/`None`/`NaN`, `str`, `int`, `float`, `pd.Timestamp`).
Floats are exact decimals `m * 10 ^ (-e)`. -/
inductive PyVal where
  | na : PyVal
  | str (s : String) : PyVal
  | int (n : Int) : PyVal
  | float (m : Int) (e : Nat) : PyVal
  | ts (y mo d h mi sec : Nat) : PyVal
deriving DecidableEq, Repr

/-- Two-digit zero-padded rendering (`%m`, `%d`, `%H`, `%M`, `%S`). -/
def pad2 (n : Nat) : List Char :=
  if n < 10 then ['0', digitChar n] else natToDigits n

/-- `Timestamp.strftime(%Y-%m-%d %H:%M:%S)` (year zero-padded to 4). -/
def renderTs (y mo d h mi sec : Nat) : String :=
  ⟨List.replicate (4 - (natToDigits y).length) '0' ++ natToDigits y ++
    '-' :: pad2 mo ++ '-' :: pad2 d ++ ' ' :: pad2 h ++
    ':' :: pad2 mi ++ ':' :: pad2 sec⟩

namespace DataNormalizer

/-- The exact tokens collapsed to `pd.NA` by the column-level `replace` in
`DataNormalizer._normalize_column`. -/
def nullTokens : List String := ["", "None", "none", "NULL", "null"]

/-- The string branch of `DataNormalizer._normalize_value`: trim, then try
`int`, then (only if a `.` is present) `float`, else keep the trimmed text. -/
def normalize_str (t : String) : PyVal :=
  let trimmed := pyStrip t
  if trimmed = "" then .na
  else if '.' ∉ trimmed.data then
    match pyIntParse trimmed with
    | some k => .str (intStr k)
    | none => .str trimmed
  else
    match pyFloatDec trimmed with
    | some (m, e) =>
      let c := canonDec m e
      if c.2 = 0 then .str (intStr c.1) else .str (renderDec c.1 c.2)
    | none => .str trimmed

/-- `DataNormalizer._normalize_value` on a non-replaced value. -/
def normalize_value (v : PyVal) : PyVal :=
  match v with
  | .na => .na
  | .str t => normalize_str t
  | .int n => .str (intStr n)
  | .float m e =>
    let c := canonDec m e
    if c.2 = 0 then .str (intStr c.1) else .str (renderDec c.1 c.2)
  | .ts y mo d h mi sec => .str (renderTs y mo d h mi sec)

/-- One cell of `DataNormalizer._normalize_column`: the column-level `replace`
of the exact null tokens to `pd.NA`, then `_normalize_value`. -/
def normalize_cell (v : PyVal) : PyVal :=
  match v with
  | .na => .na
  | .str t => if t ∈ nullTokens then .na else normalize_str t
  | v => normalize_value v

/-- `DataNormalizer.normalize_dataframe`: normalization is applied to every
cell independently (per column in the source); the dataset is modelled as a
row-major grid of cells. -/
def normalize_dataframe (g : List (List PyVal)) : List (List PyVal) :=
  g.map (fun row => row.map normalize_cell)

end DataNormalizer

/-- A normalized cell: `none` models `pd.NA`, `some s` a text value. -/
abbrev Cell := Option String

/-- A dataset row: cells in column order. -/
abbrev Row := List Cell

/-- Cell of a row at a column position (`pd.NA` if absent). -/
def cellAt (r : Row) (i : Nat) : Cell :=
  (r.get? i).getD none

namespace DiffEngine

/-- `RECORD_NUMBER_COL_INDEX` (column B). -/
def RECORD_NUMBER_COL_IDX : Nat := 1

/-- Change type of a `DiffResult`. -/
inductive ChangeType where
  | added : ChangeType
  | deleted : ChangeType
  | changed : ChangeType
deriving DecidableEq, Repr

/-- `DiffResult`: one emitted difference.  `old_data`/`new_data` model the
`Series.to_dict()` mappings as column-name/value association lists. -/
structure DiffResult where
  row_index : Nat
  change_type : ChangeType
  old_data : Option (List (String × Cell))
  new_data : Option (List (String × Cell))
  changed_columns : Option (List String)
  record_number : String
deriving DecidableEq, Repr

/-- The `__init__` row filter: keep rows whose record-number cell is
non-null (`notna`) and not the empty string. -/
def keepRow (r : Row) : Bool :=
  match cellAt r RECORD_NUMBER_COL_IDX with
  | some s => s ≠ ""
  | none => false

/-- Retained rows paired with their original positional labels.  The filtered
DataFrame keeps the original `RangeIndex` labels, which `iterrows` later
yields. -/
def keptLabeled (rows : List Row) : List (Nat × Row) :=
  rows.enum.filter (fun p => keepRow p.2)

/-- Retained rows of a dataset, in order. -/
def keptRows (rows : List Row) : List Row :=
  (keptLabeled rows).map (fun p => p.2)

/-- Record-number key of a retained row (`str(cell)`, `""` for `NA`). -/
def recKey (r : Row) : String :=
  (cellAt r RECORD_NUMBER_COL_IDX).getD ""

/-- Append a label under a key in an insertion-ordered association list
(the model of `defaultdict(list)` under Python's ordered `dict`). -/
def addToGroup (gs : List (String × List Nat)) (k : String) (l : Nat) :
    List (String × List Nat) :=
  match gs with
  | [] => [(k, [l])]
  | (k0, ls) :: rest =>
    if k0 = k then (k0, ls ++ [l]) :: rest else (k0, ls) :: addToGroup rest k l

/-- `_group_by_record_number`: group the retained labels by record-number
text, keys in first-seen order, labels in row order. -/
def group_by_record_number (rows : List Row) : List (String × List Nat) :=
  (keptLabeled rows).foldl (fun gs p => addToGroup gs (recKey p.2) p.1) []

/-- `groups.get(k, [])`. -/
def lookupGroup (gs : List (String × List Nat)) (k : String) : List Nat :=
  (gs.lookup k).getD []

/-- `df.iloc[i]` on the filtered frame: positional access; an out-of-range
label raises `IndexError`. -/
def fetchRow (rows : List Row) (i : Nat) : Except Unit Row :=
  match rows.get? i with
  | some r => .ok r
  | none => .error ()

/-- `[df.iloc[i] for i in labels]`. -/
def fetchRows (rows : List Row) : List Nat → Except Unit (List Row)
  | [] => .ok []
  | i :: is =>
    match rows.get? i with
    | some r => (fetchRows rows is).map (fun rs => r :: rs)
    | none => .error ()

/-- `Series.to_dict()`: the column-name/cell association of a row. -/
def rowDict (cols : List String) (r : Row) : List (String × Cell) :=
  cols.zip r

/-- Null-aware cell difference used by `_diff_cells`: both `NA` → no change,
one `NA` → change, else text inequality. -/
def cellsDiffer (a b : Cell) : Bool :=
  match a, b with
  | none, none => false
  | some x, some y => x ≠ y
  | _, _ => true

/-- `_diff_cells`: names of the columns whose cells differ. -/
def diff_cells (cols : List String) (oldR newR : Row) : List String :=
  (cols.enum.filter (fun p => cellsDiffer (cellAt oldR p.1) (cellAt newR p.1))).map
    (fun p => p.2)

/-- An `added` result for a new row. -/
def mkAdded (cols : List String) (k : String) (r : Row) : DiffResult :=
  ⟨0, .added, none, some (rowDict cols r), none, k⟩

/-- A `deleted` result for an old row. -/
def mkDeleted (cols : List String) (k : String) (r : Row) : DiffResult :=
  ⟨0, .deleted, some (rowDict cols r), none, none, k⟩

/-- The positional `changed` pass over paired rows: one `changed` result per
pair with a nonempty list of differing columns; silent pairs emit nothing. -/
def changedResults (cols : List String) (k : String) :
    List (Row × Row) → List DiffResult
  | [] => []
  | (o, n) :: rest =>
    match diff_cells cols o n with
    | [] => changedResults cols k rest
    | cs => ⟨0, .changed, some (rowDict cols o), some (rowDict cols n), some cs, k⟩ ::
        changedResults cols k rest

/-- `_compare_within_group`: equal sizes pair positionally; unequal sizes pair
up to the shorter length and emit `deleted`/`added` for the leftovers. -/
def compare_within_group (cols : List String) (k : String)
    (oldRows newRows : List Row) : List DiffResult :=
  if oldRows.length = newRows.length then
    changedResults cols k (oldRows.zip newRows)
  else if newRows.length < oldRows.length then
    changedResults cols k (oldRows.zip newRows) ++
      (oldRows.drop newRows.length).map (mkDeleted cols k)
  else
    changedResults cols k (oldRows.zip newRows) ++
      (newRows.drop oldRows.length).map (mkAdded cols k)

/-- Phase 2 body for one record-number key. -/
def emitKey (cols : List String) (oldKept newKept : List Row)
    (oldGroups newGroups : List (String × List Nat)) (k : String) :
    Except Unit (List DiffResult) :=
  let oldLs := lookupGroup oldGroups k
  let newLs := lookupGroup newGroups k
  if oldLs = [] ∧ newLs ≠ [] then
    (fetchRows newKept newLs).map (fun rs => rs.map (mkAdded cols k))
  else if oldLs ≠ [] ∧ newLs = [] then
    (fetchRows oldKept oldLs).map (fun rs => rs.map (mkDeleted cols k))
  else do
    let oldRows ← fetchRows oldKept oldLs
    let newRows ← fetchRows newKept newLs
    pure (compare_within_group cols k oldRows newRows)

/-- Phase 2: emit results for the keys in enumeration order, appending. -/
def emits (cols : List String) (oldKept newKept : List Row)
    (oldGroups newGroups : List (String × List Nat)) :
    List String → Except Unit (List DiffResult)
  | [] => .ok []
  | k :: ks => do
    let a ← emitKey cols oldKept newKept oldGroups newGroups k
    let b ← emits cols oldKept newKept oldGroups newGroups ks
    pure (a ++ b)

/-- The emission phase of `compare` (phases 1–2), for a given enumeration of
the combined record-number key set. -/
def emissionsOf (cols : List String) (oldRows newRows : List Row)
    (ko : List String) : Except Unit (List DiffResult) :=
  emits cols (keptRows oldRows) (keptRows newRows)
    (group_by_record_number oldRows) (group_by_record_number newRows) ko

/-- The `isdigit`-based numeric test on a record number:
`s.replace('.', '', 1).replace('-', '', 1).isdigit()`. -/
def removeOnce (c : Char) : List Char → List Char
  | [] => []
  | x :: xs => if x = c then xs else x :: removeOnce c xs

/-- The per-key `all_numeric` test in `compare` phase 3. -/
def pyNumCheck (s : String) : Bool :=
  let t := removeOnce '-' (removeOnce '.' s.data)
  t ≠ [] && t.all Char.isDigit

/-- Sort key of a result: `float(record_number)` (0 as the unreachable
fallback for an empty record number). -/
def sortKeyVal (r : DiffResult) : ℚ :=
  (pyFloatVal r.record_number).getD 0

/-- A record number counts as numerically parseable for sorting exactly when
it passes the `isdigit` shape test and `float()` succeeds on it.  On
normalized record numbers this coincides with parsing as a signed decimal
numeral. -/
def numKey (s : String) : Option ℚ :=
  if pyNumCheck s then pyFloatVal s else none

/-- Stable insertion into a descending-sorted list: keep skipping while the
head has a strictly larger key, so equal keys retain first-come order. -/
def insDesc (f : DiffResult → ℚ) (x : DiffResult) :
    List DiffResult → List DiffResult
  | [] => [x]
  | y :: ys => if f x < f y then y :: insDesc f x ys else x :: y :: ys

/-- Stable descending sort (the model of `list.sort(key=..., reverse=True)`;
CPython's sort is stable, and a stable sort by a total key is unique). -/
def sortDesc (f : DiffResult → ℚ) : List DiffResult → List DiffResult
  | [] => []
  | x :: xs => insDesc f x (sortDesc f xs)

/-- Phase 3 of `compare`: sort descending by numeric record number when every
record number passes the `isdigit` test and `float()` parses them all; any
failure (shape test or `ValueError` from `float`) leaves the order unchanged. -/
def sortPhase (l : List DiffResult) : List DiffResult :=
  if l.all (fun r => pyNumCheck r.record_number) then
    if l.all (fun r => (pyFloatVal r.record_number).isSome) then
      sortDesc sortKeyVal l
    else l
  else l

/-- Phase 4 of `compare`: reassign `row_index` densely as 1..N. -/
def reindex (l : List DiffResult) : List DiffResult :=
  l.enum.map (fun p => { p.2 with row_index := p.1 + 1 })

/-- `DiffEngine.compare` for column-aligned inputs sharing the column list
`cols` (alignment is a documented precondition of the engine; under it the
name-based lookups of the record column coincide with position 1).  The
enumeration `ko` of the key set `set(old_groups) | set(new_groups)` is an
explicit parameter because Python set iteration order is unspecified.  When
there is no column at index 1 the engine falls back to
`_compare_without_record_number`, which returns the empty list. -/
def compare (cols : List String) (oldRows newRows : List Row)
    (ko : List String) : Except Unit (List DiffResult) :=
  if RECORD_NUMBER_COL_IDX < cols.length then
    (emissionsOf cols oldRows newRows ko).map (fun ems => reindex (sortPhase ems))
  else .ok []

/-- Erase the (reassigned) row index of a result. -/
def eraseIdx (r : DiffResult) : DiffResult :=
  { r with row_index := 0 }

/-- Erase all row indices. -/
def stripIdx (l : List DiffResult) : List DiffResult :=
  l.map eraseIdx

/-- Decidable equality of modelled call results. -/
instance instDecEqExcept {e a : Type} [DecidableEq e] [DecidableEq a] :
    DecidableEq (Except e a) := fun x y =>
  match x, y with
  | .error u, .error v =>
    if h : u = v then .isTrue (by rw [h])
    else .isFalse (fun hc => h (by cases hc; rfl))
  | .error _, .ok _ => .isFalse (fun hc => Except.noConfusion hc)
  | .ok _, .error _ => .isFalse (fun hc => Except.noConfusion hc)
  | .ok u, .ok v =>
    if h : u = v then .isTrue (by rw [h])
    else .isFalse (fun hc => h (by cases hc; rfl))

/-- First-seen key order of the combined key set: old keys in first-seen
order, then new-only keys in first-seen order (one canonical enumeration). -/
def unionKeys (oldRows newRows : List Row) : List String :=
  let ok := (group_by_record_number oldRows).map (fun p => p.1)
  let nk := (group_by_record_number newRows).map (fun p => p.1)
  ok ++ nk.filter (fun k => k ∉ ok)

end DiffEngine

/-- Subtraction on ℚ written with `mkRat`, so that it evaluates by kernel
reduction; `ratSub a b = a - b` is proved below. -/
def ratSub (a b : ℚ) : ℚ :=
  mkRat (a.num * b.den - b.num * a.den) (a.den * b.den)

/-- Absolute value on ℚ with an explicit sign test, so that it evaluates by
kernel reduction; `ratAbs q = |q|` is proved below. -/
def ratAbs (q : ℚ) : ℚ :=
  if q < 0 then mkRat (-q.num) q.den else q

namespace MonthlySales

/-- Change type of a month-block cell. -/
inductive MCT where
  | increased : MCT
  | decreased : MCT
  | unchanged : MCT
deriving DecidableEq, Repr

/-- `MonthlySalesCellDiff` (values as exact rationals). -/
structure CellDiff where
  row_index : Nat
  column_name : String
  old_value : Option ℚ
  new_value : Option ℚ
  change_type : MCT
deriving DecidableEq, Repr

/-- `MonthlySalesMonthDiff`. -/
structure MonthDiff where
  month_name : String
  column_range : Nat × Nat
  cell_diffs : List CellDiff
deriving DecidableEq, Repr

/-- The numeric tolerance of the engine (`mkRat 1 100 = 1 / 100`). -/
def tolerance : ℚ := mkRat 1 100

/-- `_determine_change_type` (the subtraction and the absolute value are
written with the kernel-computable forms `ratSub`/`ratAbs`). -/
def determine_change_type (o n : Option ℚ) : MCT :=
  if (o = none ∨ o = some 0) ∧ (n = none ∨ n = some 0) then .unchanged
  else
    let ov := o.getD 0
    let nv := n.getD 0
    let diff := ratSub nv ov
    if ratAbs diff ≤ tolerance then .unchanged
    else if 0 < diff then .increased
    else .decreased

/-- A month block: rows of the four metric cells, in the fixed column order
`['売上', '外部原価', '内部原価', '営業利益']` assigned by the reader. -/
abbrev Block := List (List (Option ℚ))

/-- The four metric column names of every month block. -/
def metricCols : List String := ["売上", "外部原価", "内部原価", "営業利益"]

/-- Cell of a block at row `i`, metric column `j` (`None` when the row index
is out of range or the stored cell is `NA`). -/
def blockCell (b : Block) (i j : Nat) : Option ℚ :=
  match b.get? i with
  | some row => (row.get? j).getD none
  | none => none

/-- `_compare_blocks`: every cell of `[0, max_rows) × metricCols` produces one
`CellDiff`, including unchanged ones. -/
def compare_blocks (oldB newB : Block) : List CellDiff :=
  (List.range (max oldB.length newB.length)).flatMap (fun i =>
    metricCols.enum.map (fun p =>
      let ov := blockCell oldB i p.1
      let nv := blockCell newB i p.1
      ⟨i, p.2, ov, nv, determine_change_type ov nv⟩))

/-- A parsed sheet: the label→block mapping (insertion-ordered `dict`) and the
declared label order, as produced by the reader. -/
structure SheetData where
  month_blocks : List (String × Block)
  month_order : List String
deriving Repr

/-- The label set of a sheet (`month_blocks.keys()`). -/
def sheetKeys (s : SheetData) : List String :=
  s.month_blocks.map (fun p => p.1)

/-- `data['month_blocks'][m]` (the default is unreachable at call sites:
lookups are made for common labels only). -/
def lookupBlock (s : SheetData) (m : String) : Block :=
  (s.month_blocks.lookup m).getD []

/-- Whether a compared month has at least one non-`unchanged` cell. -/
def hasChanges (old new : SheetData) (m : String) : Bool :=
  (compare_blocks (lookupBlock old m) (lookupBlock new m)).any
    (fun cd => cd.change_type ≠ .unchanged)

/-- The loop body of `compare_sheets`: append the month when it has a
non-`unchanged` cell and advance the output column by four. -/
def sheetFoldStep (old new : SheetData) (acc : List MonthDiff × Nat)
    (m : String) : List MonthDiff × Nat :=
  let cds := compare_blocks (lookupBlock old m) (lookupBlock new m)
  if cds.any (fun cd => cd.change_type ≠ .unchanged) then
    (acc.1 ++ [⟨m, (acc.2, acc.2 + 3), cds⟩], acc.2 + 4)
  else acc

/-- `compare_sheets`: iterate the new sheet's declared label order restricted
to the common labels (`common_months` is only used for membership tests, so
its set iteration order is irrelevant); include a month only when it has a
non-`unchanged` cell; assign four contiguous output columns per included
month starting at column D (index 3). -/
def compare_sheets (old new : SheetData) : List MonthDiff :=
  let ordered := new.month_order.filter
    (fun m => m ∈ sheetKeys old ∧ m ∈ sheetKeys new)
  (ordered.foldl (sheetFoldStep old new) (([] : List MonthDiff), 3)).1

/-- The claim's month-block cell classification rule, written following the
spec's wording (null treated as 0; tolerance 0.01 on the difference). -/
def specChangeType (o n : Option ℚ) : MCT :=
  if o.getD 0 = 0 ∧ n.getD 0 = 0 then .unchanged
  else if |n.getD 0 - o.getD 0| ≤ 1 / 100 then .unchanged
  else if 1 / 100 < n.getD 0 - o.getD 0 then .increased
  else .decreased

end MonthlySales

namespace DataNormalizer

/-- A DataFrame for column alignment: column names and row-major cells. -/
structure Df where
  cols : List String
  rows : List (List Cell)
deriving DecidableEq, Repr

/-- `old_df[col] = pd.NA`: append a new column filled with `NA`. -/
def addNullCol (d : Df) (c : String) : Df :=
  ⟨d.cols ++ [c], d.rows.map (fun r => r ++ [none])⟩

/-- The in-place mutation loop of `align_columns`: every column of `new`
absent from `old` is appended to the caller's `old` object, filled with `NA`. -/
def mutateOld (old new : Df) : Df :=
  new.cols.foldl (fun acc c => if c ∈ acc.cols then acc else addNullCol acc c) old

/-- Column selection `df[new_columns]` by name. -/
def selectCols (d : Df) (cs : List String) : Df :=
  ⟨cs, d.rows.map (fun r => cs.map (fun c =>
    match d.cols.indexOf? c with
    | some i => cellAt r i
    | none => none))⟩

/-- `align_columns`: returns the pair the function returns together with the
final state of the caller's `old_df` argument (third component), which the
function mutates in place before building the reordered copy. -/
def align_columns (old new : Df) : (Df × Df) × Df :=
  let mutated := mutateOld old new
  ((selectCols mutated new.cols, new), mutated)

end DataNormalizer

theorem digitsToNat_append (l : List Char) (c : Char) :
    digitsToNat (l ++ [c]) = digitsToNat l * 10 + digitVal c := by
  simp [digitsToNat, List.foldl_append]

theorem digitVal_digitChar (n : Nat) (h : n < 10) : digitVal (digitChar n) = n := by
  interval_cases n <;> rfl

theorem digitChar_isDigit (n : Nat) (h : n < 10) : (digitChar n).isDigit = true := by
  interval_cases n <;> rfl

theorem natToDigits_eq_of_lt (n : Nat) (h : n < 10) : natToDigits n = [digitChar n] := by
  rw [natToDigits]
  simp [h]

theorem natToDigits_eq_of_ge (n : Nat) (h : ¬ n < 10) :
    natToDigits n = natToDigits (n / 10) ++ [digitChar (n % 10)] := by
  rw [natToDigits]
  simp [h]

theorem digitsToNat_natToDigits (n : Nat) : digitsToNat (natToDigits n) = n := by
  induction n using Nat.strong_induction_on with
  | _ n ih =>
    by_cases h : n < 10
    · rw [natToDigits_eq_of_lt n h]
      simp [digitsToNat, digitVal_digitChar n h]
    · rw [natToDigits_eq_of_ge n h, digitsToNat_append,
        ih (n / 10) (Nat.div_lt_self (by omega) (by omega)),
        digitVal_digitChar _ (Nat.mod_lt _ (by omega))]
      omega

theorem natToDigits_all_digit (n : Nat) : (natToDigits n).all Char.isDigit = true := by
  induction n using Nat.strong_induction_on with
  | _ n ih =>
    by_cases h : n < 10
    · rw [natToDigits_eq_of_lt n h]
      simp [digitChar_isDigit n h]
    · rw [natToDigits_eq_of_ge n h]
      simp only [List.all_append, Bool.and_eq_true]
      exact ⟨ih (n / 10) (Nat.div_lt_self (by omega) (by omega)),
        by simp [digitChar_isDigit _ (Nat.mod_lt _ (by omega))]⟩

theorem natToDigits_ne_nil (n : Nat) : natToDigits n ≠ [] := by
  by_cases h : n < 10
  · rw [natToDigits_eq_of_lt n h]; simp
  · rw [natToDigits_eq_of_ge n h]; simp

theorem isDigit_val {c : Char} (h : c.isDigit = true) :
    48 ≤ c.toNat ∧ c.toNat ≤ 57 := by
  simp only [Char.isDigit, decide_eq_true_eq, Bool.and_eq_true] at h
  rcases h with ⟨h1, h2⟩
  constructor
  · exact h1
  · exact h2

theorem pyWs_eq_false_of_isDigit {c : Char} (h : c.isDigit = true) :
    pyWs c = false := by
  by_contra hcon
  rw [Bool.not_eq_false] at hcon
  unfold pyWs at hcon
  rcases of_decide_eq_true hcon with h1 | h1 | h1 | h1 | h1 | h1 <;>
    subst h1 <;> exact absurd h (by decide)

theorem isDigit_ne_special {c : Char} (h : c.isDigit = true) :
    c ≠ '+' ∧ c ≠ '-' ∧ c ≠ '.' ∧ c ≠ 'e' ∧ c ≠ 'E' := by
  refine ⟨?_, ?_, ?_, ?_, ?_⟩ <;> intro hc <;> subst hc <;>
    exact absurd h (by decide)

theorem data_ne_nil_iff {s : String} : s.data ≠ [] ↔ s ≠ "" := by
  constructor
  · intro h hc
    subst hc
    exact h rfl
  · intro h hc
    apply h
    cases s
    simp_all [String.ext_iff]

theorem stripChars_eq_rdrop (l : List Char) :
    stripChars l = List.rdropWhile pyWs (l.dropWhile pyWs) := rfl

theorem dropWhile_cons_head {p : Char → Bool} {l t : List Char} {c : Char}
    (h : l.dropWhile p = c :: t) : p c = false := by
  induction l with
  | nil => simp at h
  | cons a l ih =>
    rw [List.dropWhile_cons] at h
    split_ifs at h with ha
    · exact ih h
    · cases h
      simpa using ha

theorem rdrop_head {p : Char → Bool} {u t : List Char} {c : Char}
    (h : List.rdropWhile p u = c :: t) : ∃ t2, u = c :: t2 := by
  have h2 : (u.reverse.dropWhile p).reverse = c :: t := h
  have h3 : u.reverse.dropWhile p = t.reverse ++ [c] := by
    have := congrArg List.reverse h2
    simpa using this
  obtain ⟨pre, hpre⟩ := List.dropWhile_suffix (l := u.reverse) (p := p)
  rw [h3] at hpre
  have h4 := congrArg List.reverse hpre
  simp only [List.reverse_append, List.reverse_reverse, List.reverse_cons,
    List.reverse_nil, List.nil_append, List.append_assoc] at h4
  exact ⟨t ++ pre.reverse, by rw [← h4]; simp⟩

theorem stripChars_idem (l : List Char) :
    stripChars (stripChars l) = stripChars l := by
  rw [stripChars_eq_rdrop, stripChars_eq_rdrop]
  set u := l.dropWhile pyWs with hu
  have hdrop : (List.rdropWhile pyWs u).dropWhile pyWs = List.rdropWhile pyWs u := by
    cases hr : List.rdropWhile pyWs u with
    | nil => rfl
    | cons c t =>
      obtain ⟨t2, ht2⟩ := rdrop_head hr
      have hc : pyWs c = false := by
        apply dropWhile_cons_head (l := l)
        rw [← hu, ht2]
      rw [List.dropWhile_cons, hc]
      simp
  rw [hdrop, List.rdropWhile_idempotent]

theorem stripChars_eq_self_of_no_ws {l : List Char}
    (h : ∀ c ∈ l, pyWs c = false) : stripChars l = l := by
  rw [stripChars_eq_rdrop]
  have h1 : l.dropWhile pyWs = l := by
    cases l with
    | nil => rfl
    | cons c t =>
      rw [List.dropWhile_cons, h c (List.mem_cons_self _ _)]
      simp
  rw [h1]
  rw [List.rdropWhile_eq_self_iff]
  intro hl
  rw [h _ (List.getLast_mem hl)]
  simp

theorem stripChars_eq_nil_of_all_ws {l : List Char}
    (h : ∀ c ∈ l, pyWs c = true) : stripChars l = [] := by
  rw [stripChars_eq_rdrop]
  have h1 : l.dropWhile pyWs = [] := List.dropWhile_eq_nil_iff.mpr h
  rw [h1, List.rdropWhile_nil]

theorem stripChars_eq_self_of_ends {l : List Char}
    (hh : ∀ c, l.head? = some c → pyWs c = false)
    (hl : ∀ c, l.getLast? = some c → pyWs c = false) : stripChars l = l := by
  rw [stripChars_eq_rdrop]
  cases l with
  | nil => rfl
  | cons a t =>
    have h1 : (a :: t).dropWhile pyWs = a :: t := by
      rw [List.dropWhile_cons, hh a rfl]
      simp
    rw [h1, List.rdropWhile_eq_self_iff]
    intro hne
    rw [hl _ (List.getLast?_eq_getLast _ hne ▸ rfl)]
    simp

theorem intStr_data (k : Int) : (intStr k).data =
    if k < 0 then '-' :: natToDigits k.natAbs else natToDigits k.natAbs := by
  unfold intStr natStr
  split_ifs with h
  · rfl
  · rfl

theorem intStr_chars (k : Int) :
    ∀ c ∈ (intStr k).data, c.isDigit = true ∨ c = '-' := by
  intro c hc
  rw [intStr_data] at hc
  split_ifs at hc with h
  · rcases List.mem_cons.mp hc with rfl | hc
    · exact Or.inr rfl
    · exact Or.inl (List.all_eq_true.mp (natToDigits_all_digit _) c hc)
  · exact Or.inl (List.all_eq_true.mp (natToDigits_all_digit _) c hc)

theorem intStr_data_ne_nil (k : Int) : (intStr k).data ≠ [] := by
  rw [intStr_data]
  split_ifs with h
  · simp
  · exact natToDigits_ne_nil _

theorem natPart_natToDigits (n : Nat) : natPart (natToDigits n) = some n := by
  unfold natPart
  rw [if_pos ⟨natToDigits_ne_nil n, natToDigits_all_digit n⟩,
    digitsToNat_natToDigits]

theorem pyIntParseChars_neg_head (l : List Char) :
    pyIntParseChars ('-' :: l) = (natPart l).map (fun n => -(n : Int)) := rfl

theorem pyIntParseChars_digit_head {c : Char} (rest : List Char)
    (h : c.isDigit = true) :
    pyIntParseChars (c :: rest) = (natPart (c :: rest)).map Int.ofNat := by
  obtain ⟨hp, hm, _, _, _⟩ := isDigit_ne_special h
  simp [pyIntParseChars, hp, hm]

theorem pyIntParse_intStr (k : Int) : pyIntParse (intStr k) = some k := by
  unfold pyIntParse
  rw [intStr_data]
  by_cases hk : k < 0
  · rw [if_pos hk, pyIntParseChars_neg_head, natPart_natToDigits]
    show some (-(k.natAbs : Int)) = some k
    rw [show -(k.natAbs : Int) = k by omega]
  · rw [if_neg hk]
    cases hd : natToDigits k.natAbs with
    | nil => exact absurd hd (natToDigits_ne_nil _)
    | cons c rest =>
      have hc : c.isDigit = true :=
        List.all_eq_true.mp (natToDigits_all_digit _) c (by rw [hd]; simp)
      rw [pyIntParseChars_digit_head rest hc, ← hd, natPart_natToDigits]
      show some ((k.natAbs : Int)) = some k
      rw [show ((k.natAbs : Int)) = k by omega]

theorem splitOnExp_no_marker {l : List Char}
    (h : ∀ c ∈ l, c ≠ 'e' ∧ c ≠ 'E') : splitOnExp l = (l, none) := by
  induction l with
  | nil => rfl
  | cons c cs ih =>
    simp only [splitOnExp]
    rw [if_neg, ih (fun c0 hc0 => h c0 (List.mem_cons_of_mem _ hc0))]
    rcases h c (List.mem_cons_self _ _) with ⟨h1, h2⟩
    intro hc
    rcases hc with hc | hc
    · exact h1 hc
    · exact h2 hc

theorem splitDot_no_dot {l : List Char} (h : ∀ c ∈ l, c ≠ '.') :
    splitDot l = (l, none) := by
  induction l with
  | nil => rfl
  | cons c cs ih =>
    simp only [splitDot]
    rw [if_neg (h c (List.mem_cons_self _ _)),
      ih (fun c0 hc0 => h c0 (List.mem_cons_of_mem _ hc0))]

theorem splitDot_split {A B : List Char} (h : ∀ c ∈ A, c ≠ '.') :
    splitDot (A ++ '.' :: B) = (A, some B) := by
  induction A with
  | nil => simp [splitDot]
  | cons a A ih =>
    simp only [List.cons_append, splitDot, List.append_eq]
    rw [if_neg (h a (List.mem_cons_self _ _)),
      ih (fun c0 hc0 => h c0 (List.mem_cons_of_mem _ hc0))]

theorem digitsToNat_cons_zero (l : List Char) :
    digitsToNat ('0' :: l) = digitsToNat l := by
  simp [digitsToNat, List.foldl_cons, digitVal]

theorem digitsToNat_replicate_zero (k : Nat) (l : List Char) :
    digitsToNat (List.replicate k '0' ++ l) = digitsToNat l := by
  induction k with
  | zero => simp
  | succ k ih =>
    rw [List.replicate_succ, List.cons_append, digitsToNat_cons_zero, ih]

theorem parseMantissa_of_split {A B : List Char}
    (hA : ∀ c ∈ A, c.isDigit = true) (hB : ∀ c ∈ B, c.isDigit = true)
    (hne : A ++ B ≠ []) :
    parseMantissa (A ++ '.' :: B) = some (digitsToNat (A ++ B), B.length) := by
  unfold parseMantissa
  rw [splitDot_split (fun c hc => (isDigit_ne_special (hA c hc)).2.2.1)]
  simp only [Option.getD_some]
  rw [if_pos]
  refine ⟨hne, ?_⟩
  rw [List.all_append, Bool.and_eq_true]
  constructor
  · rw [List.all_eq_true]
    exact hA
  · rw [List.all_eq_true]
    exact hB

theorem splitSign_digit_head {c : Char} (l : List Char) (h : c.isDigit = true) :
    splitSign (c :: l) = (false, c :: l) := by
  obtain ⟨hp, hm, _, _, _⟩ := isDigit_ne_special h
  simp [splitSign, hp, hm]

theorem splitSign_neg_head (l : List Char) : splitSign ('-' :: l) = (true, l) := rfl

theorem decDigits_all_digit (m : Int) (e : Nat) :
    ∀ c ∈ decDigits m e, c.isDigit = true := by
  intro c hc
  unfold decDigits at hc
  rcases List.mem_append.mp hc with hc | hc
  · rw [List.eq_of_mem_replicate hc]
    decide
  · exact List.all_eq_true.mp (natToDigits_all_digit _) c hc

theorem decDigits_len (m : Int) (e : Nat) : e + 1 ≤ (decDigits m e).length := by
  unfold decDigits
  rw [List.length_append, List.length_replicate]
  omega

theorem digitsToNat_decDigits (m : Int) (e : Nat) :
    digitsToNat (decDigits m e) = m.natAbs := by
  unfold decDigits
  rw [digitsToNat_replicate_zero, digitsToNat_natToDigits]

theorem renderDec_data (m : Int) (e : Nat) : (renderDec m e).data =
    (if m < 0 then ['-'] else []) ++
    ((decDigits m e).take ((decDigits m e).length - e) ++
      '.' :: (decDigits m e).drop ((decDigits m e).length - e)) := by
  simp [renderDec, List.append_assoc]

theorem pyFloatDecChars_no_exp (l : List Char)
    (hmark : ∀ c ∈ l, c ≠ 'e' ∧ c ≠ 'E') :
    pyFloatDecChars l =
      (match parseMantissa (splitSign l).2 with
        | none => none
        | some (m0, e0) =>
          some (if (splitSign l).1 then -(m0 : Int) else (m0 : Int), e0)) := by
  simp only [pyFloatDecChars, splitOnExp_no_marker hmark]

theorem pyFloatDec_renderDec (m : Int) (e : Nat) :
    pyFloatDec (renderDec m e) = some (m, e) := by
  unfold pyFloatDec
  rw [renderDec_data]
  have hlen : e + 1 ≤ (decDigits m e).length := decDigits_len m e
  have htake : ∀ c ∈ (decDigits m e).take ((decDigits m e).length - e),
      c.isDigit = true :=
    fun c hc => decDigits_all_digit m e c (List.take_subset _ _ hc)
  have hdrop : ∀ c ∈ (decDigits m e).drop ((decDigits m e).length - e),
      c.isDigit = true :=
    fun c hc => decDigits_all_digit m e c (List.drop_subset _ _ hc)
  have hsplit : (decDigits m e).take ((decDigits m e).length - e) ++
      (decDigits m e).drop ((decDigits m e).length - e) = decDigits m e :=
    List.take_append_drop _ _
  have hne : (decDigits m e).take ((decDigits m e).length - e) ++
      (decDigits m e).drop ((decDigits m e).length - e) ≠ [] := by
    rw [hsplit]
    intro hnil
    have := congrArg List.length hnil
    rw [List.length_nil] at this
    omega
  have hdroplen : ((decDigits m e).drop ((decDigits m e).length - e)).length = e := by
    rw [List.length_drop]
    omega
  have hmant : parseMantissa ((decDigits m e).take ((decDigits m e).length - e) ++
      '.' :: (decDigits m e).drop ((decDigits m e).length - e)) =
      some (m.natAbs, e) := by
    rw [parseMantissa_of_split htake hdrop hne, hsplit, digitsToNat_decDigits,
      hdroplen]
  have hmark : ∀ c ∈ (if m < 0 then ['-'] else []) ++
      ((decDigits m e).take ((decDigits m e).length - e) ++
        '.' :: (decDigits m e).drop ((decDigits m e).length - e)),
      c ≠ 'e' ∧ c ≠ 'E' := by
    intro c hc
    rcases List.mem_append.mp hc with hc | hc
    · split_ifs at hc
      · rw [List.mem_singleton.mp hc]
        exact ⟨by decide, by decide⟩
      · simp at hc
    · rcases List.mem_append.mp hc with hc | hc
      · have h5 := isDigit_ne_special (htake c hc)
        exact ⟨h5.2.2.2.1, h5.2.2.2.2⟩
      · rcases List.mem_cons.mp hc with rfl | hc
        · exact ⟨by decide, by decide⟩
        · have h5 := isDigit_ne_special (hdrop c hc)
          exact ⟨h5.2.2.2.1, h5.2.2.2.2⟩
  rw [pyFloatDecChars_no_exp _ hmark]
  by_cases hm0 : m < 0
  · rw [if_pos hm0, List.singleton_append, splitSign_neg_head]
    simp only [hmant]
    simp only [if_true]
    rw [show -((m.natAbs : Int)) = m by omega]
  · rw [if_neg hm0, List.nil_append]
    have htne : (decDigits m e).take ((decDigits m e).length - e) ≠ [] := by
      intro hnil
      have := congrArg List.length hnil
      rw [List.length_take, List.length_nil] at this
      omega
    cases ht : (decDigits m e).take ((decDigits m e).length - e) with
    | nil => exact absurd ht htne
    | cons c rest =>
      have hc : c.isDigit = true := by
        apply htake
        rw [ht]
        exact List.mem_cons_self _ _
      rw [ht, List.cons_append] at hmant
      rw [List.cons_append, splitSign_digit_head _ hc]
      simp only [hmant]
      rw [show ((m.natAbs : Int)) = m by omega]
      simp

theorem canonDec_fst_mod {m : Int} {e : Nat}
    (h : (canonDec m e).2 ≠ 0) : (canonDec m e).1 % 10 ≠ 0 := by
  induction e generalizing m with
  | zero => exact absurd rfl h
  | succ e ih =>
    rw [canonDec] at h ⊢
    split_ifs at h ⊢ with hm
    · exact ih h
    · exact hm

theorem canonDec_of_mod {m : Int} (e : Nat) (hm : m % 10 ≠ 0) :
    canonDec m e = (m, e) := by
  cases e with
  | zero => rfl
  | succ e =>
    rw [canonDec, if_neg hm]

theorem renderDec_chars (m : Int) (e : Nat) :
    ∀ c ∈ (renderDec m e).data, c.isDigit = true ∨ c = '-' ∨ c = '.' := by
  intro c hc
  rw [renderDec_data] at hc
  rcases List.mem_append.mp hc with hc | hc
  · split_ifs at hc
    · rw [List.mem_singleton.mp hc]
      right
      left
      rfl
    · simp at hc
  · rcases List.mem_append.mp hc with hc | hc
    · exact Or.inl (decDigits_all_digit m e c (List.mem_of_mem_take hc))
    · rcases List.mem_cons.mp hc with rfl | hc
      · right
        right
        rfl
      · exact Or.inl (decDigits_all_digit m e c (List.drop_subset _ _ hc))

theorem renderDec_has_dot (m : Int) (e : Nat) : '.' ∈ (renderDec m e).data := by
  rw [renderDec_data]
  exact List.mem_append_right _ (List.mem_append_right _ (List.mem_cons_self _ _))

namespace DataNormalizer

theorem not_token_of_numeric_chars {s : String} (hne : s.data ≠ [])
    (hc : ∀ c ∈ s.data, c.isDigit = true ∨ c = '-' ∨ c = '.') :
    s ∉ nullTokens := by
  intro h
  simp only [nullTokens, List.mem_cons, List.mem_singleton] at h
  rcases h with rfl | rfl | rfl | rfl | rfl | h
  · exact hne rfl
  · exact absurd (hc 'N' (by decide)) (by decide)
  · exact absurd (hc 'n' (by decide)) (by decide)
  · exact absurd (hc 'N' (by decide)) (by decide)
  · exact absurd (hc 'n' (by decide)) (by decide)
  · simp at h

theorem not_token_of_colon {s : String} (hcolon : ':' ∈ s.data) :
    s ∉ nullTokens := by
  intro h
  simp only [nullTokens, List.mem_cons, List.mem_singleton] at h
  rcases h with rfl | rfl | rfl | rfl | rfl | h
  · exact absurd hcolon (by decide)
  · exact absurd hcolon (by decide)
  · exact absurd hcolon (by decide)
  · exact absurd hcolon (by decide)
  · exact absurd hcolon (by decide)
  · simp at h

end DataNormalizer

theorem pad2_ne_nil (n : Nat) : pad2 n ≠ [] := by
  unfold pad2
  split_ifs
  · simp
  · exact natToDigits_ne_nil n

theorem pad2_all_digit (n : Nat) : ∀ c ∈ pad2 n, c.isDigit = true := by
  intro c hc
  unfold pad2 at hc
  split_ifs at hc with h
  · rcases List.mem_cons.mp hc with rfl | hc
    · decide
    · rw [List.mem_singleton.mp hc]
      exact digitChar_isDigit n h
  · exact List.all_eq_true.mp (natToDigits_all_digit _) c hc

theorem pad2_getLast_digit (n : Nat) :
    ∀ c, (pad2 n).getLast? = some c → c.isDigit = true := by
  intro c hc
  have hmem : c ∈ pad2 n := by
    have h1 := List.getLast?_eq_getLast (pad2 n) (pad2_ne_nil n)
    rw [h1] at hc
    cases hc
    exact List.getLast_mem _
  exact pad2_all_digit n c hmem

theorem renderTs_data (y mo d h mi sec : Nat) : (renderTs y mo d h mi sec).data =
    List.replicate (4 - (natToDigits y).length) '0' ++ natToDigits y ++
      '-' :: pad2 mo ++ '-' :: pad2 d ++ ' ' :: pad2 h ++
      ':' :: pad2 mi ++ ':' :: pad2 sec := rfl

theorem renderTs_chars (y mo d h mi sec : Nat) :
    ∀ c ∈ (renderTs y mo d h mi sec).data,
      c.isDigit = true ∨ c = '-' ∨ c = ':' ∨ c = ' ' := by
  intro c hc
  rw [renderTs_data] at hc
  simp only [List.append_assoc, List.mem_append, List.mem_cons] at hc
  rcases hc with hc | hc | hc | hc | hc | hc | hc
  · exact Or.inl (by rw [List.eq_of_mem_replicate hc]; decide)
  · exact Or.inl (List.all_eq_true.mp (natToDigits_all_digit _) c hc)
  · rcases hc with rfl | hc
    · exact Or.inr (Or.inl rfl)
    · exact Or.inl (pad2_all_digit mo c hc)
  · rcases hc with rfl | hc
    · exact Or.inr (Or.inl rfl)
    · exact Or.inl (pad2_all_digit d c hc)
  · rcases hc with rfl | hc
    · exact Or.inr (Or.inr (Or.inr rfl))
    · exact Or.inl (pad2_all_digit h c hc)
  · rcases hc with rfl | hc
    · exact Or.inr (Or.inr (Or.inl rfl))
    · exact Or.inl (pad2_all_digit mi c hc)
  · rcases hc with rfl | hc
    · exact Or.inr (Or.inr (Or.inl rfl))
    · exact Or.inl (pad2_all_digit sec c hc)

theorem renderTs_has_colon (y mo d h mi sec : Nat) :
    ':' ∈ (renderTs y mo d h mi sec).data := by
  rw [renderTs_data]
  simp

theorem renderTs_head_digit (y mo d h mi sec : Nat) :
    ∀ c, (renderTs y mo d h mi sec).data.head? = some c → c.isDigit = true := by
  intro c hc
  rw [renderTs_data] at hc
  simp only [List.append_assoc, List.head?_append, Option.or_assoc] at hc
  cases hk : (List.replicate (4 - (natToDigits y).length) '0').head? with
  | some c0 =>
    rw [hk, Option.or_some] at hc
    have hc0 : c0 = '0' := by
      cases hq : 4 - (natToDigits y).length with
      | zero => rw [hq] at hk; simp at hk
      | succ k =>
        rw [hq, List.replicate_succ] at hk
        simp at hk
        exact hk.symm
    cases hc
    rw [hc0]
    decide
  | none =>
    rw [hk, Option.none_or] at hc
    cases hd : natToDigits y with
    | nil => exact absurd hd (natToDigits_ne_nil y)
    | cons c1 t1 =>
      rw [hd] at hc
      simp only [List.head?_cons, Option.or_some] at hc
      rw [Option.some.injEq] at hc
      rw [← hc]
      exact List.all_eq_true.mp (natToDigits_all_digit y) c1 (by rw [hd]; simp)

theorem renderTs_getLast_digit (y mo d h mi sec : Nat) :
    ∀ c, (renderTs y mo d h mi sec).data.getLast? = some c → c.isDigit = true := by
  intro c hc
  rw [renderTs_data] at hc
  have hstep : (List.replicate (4 - (natToDigits y).length) '0' ++ natToDigits y ++
      '-' :: pad2 mo ++ '-' :: pad2 d ++ ' ' :: pad2 h ++
      ':' :: pad2 mi ++ ':' :: pad2 sec).getLast? = (pad2 sec).getLast? := by
    rw [List.getLast?_append]
    have h2 : (':' :: pad2 sec).getLast? = (pad2 sec).getLast? := by
      rw [show (':' :: pad2 sec) = [':'] ++ pad2 sec from rfl,
        List.getLast?_append]
      cases hl : (pad2 sec).getLast? with
      | some c0 => rw [Option.or_some]
      | none =>
        exfalso
        have := List.getLast?_eq_getLast (pad2 sec) (pad2_ne_nil sec)
        rw [this] at hl
        exact Option.noConfusion hl
    rw [h2]
    cases hl : (pad2 sec).getLast? with
    | some c0 => rw [Option.or_some]
    | none =>
      exfalso
      have := List.getLast?_eq_getLast (pad2 sec) (pad2_ne_nil sec)
      rw [this] at hl
      exact Option.noConfusion hl
  rw [hstep] at hc
  exact pad2_getLast_digit sec c hc

theorem pyStrip_idem (t : String) : pyStrip (pyStrip t) = pyStrip t := by
  show String.mk (stripChars (stripChars t.data)) = String.mk (stripChars t.data)
  rw [stripChars_idem]

theorem pyStrip_eq_self_of_no_ws {s : String}
    (h : ∀ c ∈ s.data, pyWs c = false) : pyStrip s = s := by
  show String.mk (stripChars s.data) = s
  rw [stripChars_eq_self_of_no_ws h]

theorem pyStrip_intStr (k : Int) : pyStrip (intStr k) = intStr k := by
  apply pyStrip_eq_self_of_no_ws
  intro c hc
  rcases intStr_chars k c hc with h | rfl
  · exact pyWs_eq_false_of_isDigit h
  · decide

theorem pyStrip_renderDec (m : Int) (e : Nat) :
    pyStrip (renderDec m e) = renderDec m e := by
  apply pyStrip_eq_self_of_no_ws
  intro c hc
  rcases renderDec_chars m e c hc with h | rfl | rfl
  · exact pyWs_eq_false_of_isDigit h
  · decide
  · decide

theorem pyStrip_renderTs (y mo d h mi sec : Nat) :
    pyStrip (renderTs y mo d h mi sec) = renderTs y mo d h mi sec := by
  show String.mk (stripChars (renderTs y mo d h mi sec).data) = renderTs y mo d h mi sec
  rw [stripChars_eq_self_of_ends
    (fun c hc => pyWs_eq_false_of_isDigit (renderTs_head_digit y mo d h mi sec c hc))
    (fun c hc => pyWs_eq_false_of_isDigit (renderTs_getLast_digit y mo d h mi sec c hc))]

theorem intStr_ne_empty (k : Int) : intStr k ≠ "" := by
  rw [← data_ne_nil_iff]
  exact intStr_data_ne_nil k

theorem intStr_no_dot (k : Int) : '.' ∉ (intStr k).data := by
  intro hc
  rcases intStr_chars k '.' hc with h | h
  · exact absurd h (by decide)
  · exact absurd h (by decide)

theorem renderDec_ne_empty (m : Int) (e : Nat) : renderDec m e ≠ "" := by
  rw [← data_ne_nil_iff]
  intro hnil
  have hd := renderDec_has_dot m e
  rw [hnil] at hd
  simp at hd

theorem renderDec_data_ne_nil (m : Int) (e : Nat) : (renderDec m e).data ≠ [] := by
  intro hnil
  have hd := renderDec_has_dot m e
  rw [hnil] at hd
  simp at hd

theorem renderTs_ne_empty (y mo d h mi sec : Nat) :
    renderTs y mo d h mi sec ≠ "" := by
  rw [← data_ne_nil_iff]
  intro hnil
  have hd := renderTs_has_colon y mo d h mi sec
  rw [hnil] at hd
  simp at hd

theorem renderTs_no_dot (y mo d h mi sec : Nat) :
    '.' ∉ (renderTs y mo d h mi sec).data := by
  intro hc
  rcases renderTs_chars y mo d h mi sec '.' hc with h | h | h | h <;>
    exact absurd h (by decide)

theorem natPart_eq_none_of_mem {l : List Char} {c : Char} (hc : c ∈ l)
    (hd : c.isDigit = false) : natPart l = none := by
  unfold natPart
  split_ifs with h
  · exfalso
    have h2 := List.all_eq_true.mp h.2 c hc
    rw [hd] at h2
    exact Bool.noConfusion h2
  · rfl

theorem pyIntParse_renderTs (y mo d h mi sec : Nat) :
    pyIntParse (renderTs y mo d h mi sec) = none := by
  unfold pyIntParse
  have hcol := renderTs_has_colon y mo d h mi sec
  cases hdata : (renderTs y mo d h mi sec).data with
  | nil =>
    rw [hdata] at hcol
    simp at hcol
  | cons c rest =>
    have hcdig : c.isDigit = true :=
      renderTs_head_digit y mo d h mi sec c (by rw [hdata]; rfl)
    obtain ⟨hp, hmn, _, _, _⟩ := isDigit_ne_special hcdig
    rw [hdata] at hcol
    simp only [pyIntParseChars]
    rw [if_neg hp, if_neg hmn, natPart_eq_none_of_mem hcol (by decide)]
    rfl

namespace DataNormalizer

theorem normalize_str_empty {t : String} (he : pyStrip t = "") :
    normalize_str t = .na := by
  simp only [normalize_str]
  rw [if_pos he]

theorem normalize_str_int_branch {t : String} {k : Int}
    (he : pyStrip t ≠ "") (hdot : '.' ∉ (pyStrip t).data)
    (hint : pyIntParse (pyStrip t) = some k) :
    normalize_str t = .str (intStr k) := by
  simp only [normalize_str]
  rw [if_neg he, if_pos hdot, hint]

theorem normalize_str_int_fail {t : String}
    (he : pyStrip t ≠ "") (hdot : '.' ∉ (pyStrip t).data)
    (hint : pyIntParse (pyStrip t) = none) :
    normalize_str t = .str (pyStrip t) := by
  simp only [normalize_str]
  rw [if_neg he, if_pos hdot, hint]

theorem normalize_str_float_branch {t : String} {m : Int} {e : Nat}
    (he : pyStrip t ≠ "") (hdot : ¬ '.' ∉ (pyStrip t).data)
    (hfl : pyFloatDec (pyStrip t) = some (m, e)) :
    normalize_str t =
      if (canonDec m e).2 = 0 then .str (intStr (canonDec m e).1)
      else .str (renderDec (canonDec m e).1 (canonDec m e).2) := by
  simp only [normalize_str]
  rw [if_neg he, if_neg hdot, hfl]

theorem normalize_str_float_fail {t : String}
    (he : pyStrip t ≠ "") (hdot : ¬ '.' ∉ (pyStrip t).data)
    (hfl : pyFloatDec (pyStrip t) = none) :
    normalize_str t = .str (pyStrip t) := by
  simp only [normalize_str]
  rw [if_neg he, if_neg hdot, hfl]

theorem normalize_str_pyStrip (t : String) :
    normalize_str (pyStrip t) = normalize_str t := by
  simp only [normalize_str, pyStrip_idem]

theorem normalize_cell_str_not_token {t : String} (h : t ∉ nullTokens) :
    normalize_cell (.str t) = normalize_str t := by
  simp only [normalize_cell]
  rw [if_neg h]

theorem normalize_str_intStr (k : Int) :
    normalize_str (intStr k) = .str (intStr k) := by
  simp only [normalize_str, pyStrip_intStr]
  rw [if_neg (intStr_ne_empty k), if_pos (intStr_no_dot k), pyIntParse_intStr]

theorem normalize_str_renderDec (m : Int) (e : Nat) (he : e ≠ 0)
    (hm : m % 10 ≠ 0) : normalize_str (renderDec m e) = .str (renderDec m e) := by
  simp only [normalize_str, pyStrip_renderDec]
  rw [if_neg (renderDec_ne_empty m e),
    if_neg (fun hno => hno (renderDec_has_dot m e)), pyFloatDec_renderDec]
  simp only [canonDec_of_mod e hm]
  rw [if_neg he]

theorem normalize_str_renderTs (y mo d h mi sec : Nat) :
    normalize_str (renderTs y mo d h mi sec) = .str (renderTs y mo d h mi sec) := by
  simp only [normalize_str, pyStrip_renderTs]
  rw [if_neg (renderTs_ne_empty y mo d h mi sec),
    if_pos (renderTs_no_dot y mo d h mi sec), pyIntParse_renderTs]

theorem normalize_cell_intStr (k : Int) :
    normalize_cell (.str (intStr k)) = .str (intStr k) := by
  rw [normalize_cell_str_not_token (not_token_of_numeric_chars (intStr_data_ne_nil k)
      (fun c hc => (intStr_chars k c hc).imp id Or.inl)),
    normalize_str_intStr]

theorem normalize_cell_renderDec (m : Int) (e : Nat) (he : e ≠ 0)
    (hm : m % 10 ≠ 0) :
    normalize_cell (.str (renderDec m e)) = .str (renderDec m e) := by
  rw [normalize_cell_str_not_token (not_token_of_numeric_chars
      (renderDec_data_ne_nil m e) (renderDec_chars m e)),
    normalize_str_renderDec m e he hm]

theorem normalize_cell_renderTs (y mo d h mi sec : Nat) :
    normalize_cell (.str (renderTs y mo d h mi sec)) =
      .str (renderTs y mo d h mi sec) := by
  rw [normalize_cell_str_not_token
      (not_token_of_colon (renderTs_has_colon y mo d h mi sec)),
    normalize_str_renderTs]

theorem normalize_cell_idem (v : PyVal)
    (h : ∀ s ∈ nullTokens, normalize_cell v ≠ .str s) :
    normalize_cell (normalize_cell v) = normalize_cell v := by
  cases v with
  | na => rfl
  | int n =>
    rw [show normalize_cell (.int n) = .str (intStr n) from rfl,
      normalize_cell_intStr]
  | float m e =>
    by_cases hc2 : (canonDec m e).2 = 0
    · have h1 : normalize_cell (.float m e) = .str (intStr (canonDec m e).1) := by
        show (if (canonDec m e).2 = 0 then PyVal.str (intStr (canonDec m e).1)
          else PyVal.str (renderDec (canonDec m e).1 (canonDec m e).2)) = _
        rw [if_pos hc2]
      rw [h1, normalize_cell_intStr]
    · have h1 : normalize_cell (.float m e) =
          .str (renderDec (canonDec m e).1 (canonDec m e).2) := by
        show (if (canonDec m e).2 = 0 then PyVal.str (intStr (canonDec m e).1)
          else PyVal.str (renderDec (canonDec m e).1 (canonDec m e).2)) = _
        rw [if_neg hc2]
      rw [h1, normalize_cell_renderDec _ _ hc2 (canonDec_fst_mod hc2)]
  | ts y mo d hh mi sec =>
    rw [show normalize_cell (.ts y mo d hh mi sec) =
        .str (renderTs y mo d hh mi sec) from rfl,
      normalize_cell_renderTs]
  | str t =>
    by_cases ht : t ∈ nullTokens
    · have h1 : normalize_cell (.str t) = .na := by
        simp only [normalize_cell]
        rw [if_pos ht]
      rw [h1]
      rfl
    · rw [normalize_cell_str_not_token ht] at h ⊢
      by_cases he : pyStrip t = ""
      · rw [normalize_str_empty he]
        rfl
      · by_cases hdot : '.' ∉ (pyStrip t).data
        · cases hint : pyIntParse (pyStrip t) with
          | some k =>
            rw [normalize_str_int_branch he hdot hint, normalize_cell_intStr]
          | none =>
            have h1 := normalize_str_int_fail he hdot hint
            have hnt : pyStrip t ∉ nullTokens := fun hmem => h _ hmem h1
            rw [h1, normalize_cell_str_not_token hnt, normalize_str_pyStrip, h1]
        · cases hfl : pyFloatDec (pyStrip t) with
          | some p =>
            obtain ⟨m, e⟩ := p
            by_cases hc2 : (canonDec m e).2 = 0
            · have h1 := normalize_str_float_branch he hdot hfl
              rw [if_pos hc2] at h1
              rw [h1, normalize_cell_intStr]
            · have h1 := normalize_str_float_branch he hdot hfl
              rw [if_neg hc2] at h1
              rw [h1, normalize_cell_renderDec _ _ hc2 (canonDec_fst_mod hc2)]
          | none =>
            have h1 := normalize_str_float_fail he hdot hfl
            have hnt : pyStrip t ∉ nullTokens := fun hmem => h _ hmem h1
            rw [h1, normalize_cell_str_not_token hnt, normalize_str_pyStrip, h1]

end DataNormalizer

namespace DiffEngine

theorem mem_insDesc {f : DiffResult → ℚ} {x r : DiffResult} {l : List DiffResult} :
    r ∈ insDesc f x l ↔ r = x ∨ r ∈ l := by
  induction l with
  | nil => simp [insDesc]
  | cons y ys ih =>
    by_cases h : f x < f y
    · simp only [insDesc, if_pos h, List.mem_cons, ih]
      tauto
    · simp only [insDesc, if_neg h, List.mem_cons]

theorem insDesc_perm (f : DiffResult → ℚ) (x : DiffResult) (l : List DiffResult) :
    (insDesc f x l).Perm (x :: l) := by
  induction l with
  | nil => rfl
  | cons y ys ih =>
    by_cases h : f x < f y
    · simp only [insDesc, if_pos h]
      exact (ih.cons y).trans (List.Perm.swap x y ys)
    · simp [insDesc, if_neg h]

theorem sortDesc_perm (f : DiffResult → ℚ) (l : List DiffResult) :
    (sortDesc f l).Perm l := by
  induction l with
  | nil => rfl
  | cons x xs ih => exact (insDesc_perm f x (sortDesc f xs)).trans (ih.cons x)

theorem insDesc_pairwise {f : DiffResult → ℚ} {x : DiffResult} {l : List DiffResult}
    (h : l.Pairwise (fun a b => f b ≤ f a)) :
    (insDesc f x l).Pairwise (fun a b => f b ≤ f a) := by
  induction l with
  | nil => simp [insDesc]
  | cons y ys ih =>
    rcases List.pairwise_cons.mp h with ⟨hy, hys⟩
    by_cases hlt : f x < f y
    · simp only [insDesc, if_pos hlt]
      refine List.pairwise_cons.mpr ⟨?_, ih hys⟩
      intro z hz
      rcases mem_insDesc.mp hz with rfl | hz
      · exact le_of_lt hlt
      · exact hy z hz
    · simp only [insDesc, if_neg hlt]
      refine List.pairwise_cons.mpr ⟨?_, h⟩
      intro z hz
      rcases List.mem_cons.mp hz with rfl | hz
      · exact le_of_not_lt hlt
      · exact le_trans (hy z hz) (le_of_not_lt hlt)

theorem sortDesc_pairwise (f : DiffResult → ℚ) (l : List DiffResult) :
    (sortDesc f l).Pairwise (fun a b => f b ≤ f a) := by
  induction l with
  | nil => simp [sortDesc]
  | cons x xs ih => exact insDesc_pairwise ih

theorem insDesc_filter (f : DiffResult → ℚ) (x : DiffResult) (l : List DiffResult)
    (q : ℚ) :
    (insDesc f x l).filter (fun r => f r == q) =
      if f x = q then x :: l.filter (fun r => f r == q)
      else l.filter (fun r => f r == q) := by
  induction l with
  | nil => by_cases hx : f x = q <;> simp [insDesc, List.filter_cons, hx]
  | cons y ys ih =>
    simp only [insDesc]
    by_cases hlt : f x < f y
    · rw [if_pos hlt, List.filter_cons]
      by_cases hx : f x = q
      · have hy : f y ≠ q := by
          intro hyq
          rw [hx, hyq] at hlt
          exact lt_irrefl _ hlt
        simp [hx, hy, ih]
      · simp only [ih, if_neg hx]
        by_cases hy : f y = q <;> simp [hy]
    · rw [if_neg hlt, List.filter_cons, List.filter_cons]
      by_cases hx : f x = q <;> by_cases hy : f y = q <;> simp [hx, hy]

theorem sortDesc_filter (f : DiffResult → ℚ) (l : List DiffResult) (q : ℚ) :
    (sortDesc f l).filter (fun r => f r == q) = l.filter (fun r => f r == q) := by
  induction l with
  | nil => rfl
  | cons x xs ih =>
    rw [sortDesc, insDesc_filter, ih]
    by_cases hx : f x = q <;> simp [List.filter_cons, hx]

theorem mem_sortPhase {r : DiffResult} {l : List DiffResult}
    (h : r ∈ sortPhase l) : r ∈ l := by
  unfold sortPhase at h
  split_ifs at h with h1 h2
  · exact (sortDesc_perm sortKeyVal l).mem_iff.mp h
  · exact h
  · exact h

theorem fetchRows_mem {rows : List Row} {ls : List Nat} {rs : List Row}
    (h : fetchRows rows ls = .ok rs) {r : Row} (hr : r ∈ rs) : r ∈ rows := by
  induction ls generalizing rs with
  | nil =>
    simp only [fetchRows] at h
    cases h
    simp at hr
  | cons i is ih =>
    simp only [fetchRows] at h
    cases hg : rows.get? i with
    | none => rw [hg] at h; exact absurd h (by simp [Except.map])
    | some r0 =>
      rw [hg] at h
      cases he : fetchRows rows is with
      | error e => rw [he] at h; exact absurd h (by simp [Except.map])
      | ok rs0 =>
        rw [he] at h
        simp only [Except.map, Except.ok.injEq] at h
        subst h
        rcases List.mem_cons.mp hr with rfl | hr
        · exact List.get?_mem hg
        · exact ih he hr

theorem eraseIdx_eq_self {r : DiffResult} (h : r.row_index = 0) : eraseIdx r = r := by
  cases r
  simp only [eraseIdx] at *
  simp_all

theorem stripIdx_reindex (l : List DiffResult) : stripIdx (reindex l) = stripIdx l := by
  simp only [stripIdx, reindex, List.map_map]
  have : l.enum.map (eraseIdx ∘ fun p => { p.2 with row_index := p.1 + 1 }) =
      l.enum.map (fun p => eraseIdx p.2) := by
    apply List.map_congr_left
    intro p _
    obtain ⟨i, r⟩ := p
    cases r
    rfl
  rw [this]
  have h2 : l.enum.map (fun p => eraseIdx p.2) = (l.enum.map Prod.snd).map eraseIdx := by
    rw [List.map_map]
    rfl
  rw [h2, List.enum_map_snd]

theorem reindex_row_indices (l : List DiffResult) :
    (reindex l).map (fun r => r.row_index) = List.range' 1 l.length := by
  simp only [reindex, List.map_map]
  have : (fun r => r.row_index) ∘ (fun p : Nat × DiffResult => { p.2 with row_index := p.1 + 1 }) =
      (fun p : Nat × DiffResult => p.1 + 1) := rfl
  rw [this]
  have h2 : l.enum.map (fun p => p.1 + 1) = (l.enum.map Prod.fst).map (fun i => i + 1) := by
    rw [List.map_map]
    rfl
  rw [h2, List.enum_map_fst]
  have h3 : (fun i : Nat => i + 1) = (fun i : Nat => 1 + i) := by
    funext i
    omega
  rw [h3, List.range_eq_range', List.map_add_range']

theorem mem_reindex {r : DiffResult} {l : List DiffResult} (h : r ∈ reindex l) :
    ∃ r0 ∈ l, eraseIdx r = eraseIdx r0 := by
  simp only [reindex, List.mem_map] at h
  obtain ⟨p, hp, rfl⟩ := h
  refine ⟨p.2, ?_, ?_⟩
  · have : p.2 ∈ l.enum.map Prod.snd := List.mem_map_of_mem Prod.snd hp
    rwa [List.enum_map_snd] at this
  · cases p.2
    rfl

theorem eraseIdx_fields (r : DiffResult) :
    (eraseIdx r).change_type = r.change_type ∧
    (eraseIdx r).old_data = r.old_data ∧
    (eraseIdx r).new_data = r.new_data ∧
    (eraseIdx r).changed_columns = r.changed_columns ∧
    (eraseIdx r).record_number = r.record_number := by
  cases r
  simp [eraseIdx]

/-- Shape of any result emitted by `changedResults`. -/
theorem mem_changedResults {cols : List String} {k : String}
    {pairs : List (Row × Row)} {r : DiffResult}
    (h : r ∈ changedResults cols k pairs) :
    ∃ p ∈ pairs, diff_cells cols p.1 p.2 ≠ [] ∧
      r = ⟨0, .changed, some (rowDict cols p.1), some (rowDict cols p.2),
        some (diff_cells cols p.1 p.2), k⟩ := by
  induction pairs with
  | nil => simp [changedResults] at h
  | cons p rest ih =>
    rcases p with ⟨o, n⟩
    simp only [changedResults] at h
    cases hd : diff_cells cols o n with
    | nil =>
      rw [hd] at h
      obtain ⟨p0, hp0, hr⟩ := ih h
      exact ⟨p0, List.mem_cons_of_mem _ hp0, hr⟩
    | cons c cs =>
      rw [hd] at h
      rcases List.mem_cons.mp h with rfl | h
      · exact ⟨(o, n), List.mem_cons_self _ _, by simp [hd]⟩
      · obtain ⟨p0, hp0, hr⟩ := ih h
        exact ⟨p0, List.mem_cons_of_mem _ hp0, hr⟩

/-- Shape of any result emitted by `_compare_within_group`. -/
theorem mem_compare_within_group {cols : List String} {k : String}
    {oldRows newRows : List Row} {r : DiffResult}
    (h : r ∈ compare_within_group cols k oldRows newRows) :
    (r.old_data = none ∨ ∃ o ∈ oldRows, r.old_data = some (rowDict cols o)) ∧
    (r.new_data = none ∨ ∃ n ∈ newRows, r.new_data = some (rowDict cols n)) ∧
    (r.change_type = .changed → ∃ c cs, r.changed_columns = some (c :: cs)) ∧
    r.row_index = 0 ∧ r.record_number = k := by
  have hch : ∀ r0 ∈ changedResults cols k (oldRows.zip newRows),
      (r0.old_data = none ∨ ∃ o ∈ oldRows, r0.old_data = some (rowDict cols o)) ∧
      (r0.new_data = none ∨ ∃ n ∈ newRows, r0.new_data = some (rowDict cols n)) ∧
      (r0.change_type = .changed → ∃ c cs, r0.changed_columns = some (c :: cs)) ∧
      r0.row_index = 0 ∧ r0.record_number = k := by
    intro r0 hr0
    obtain ⟨p, hp, hne, rfl⟩ := mem_changedResults hr0
    have hmem := List.of_mem_zip hp
    refine ⟨Or.inr ⟨p.1, hmem.1, rfl⟩, Or.inr ⟨p.2, hmem.2, rfl⟩, ?_, rfl, rfl⟩
    intro _
    cases hd : diff_cells cols p.1 p.2 with
    | nil => exact absurd hd hne
    | cons c cs => exact ⟨c, cs, by simp [hd]⟩
  unfold compare_within_group at h
  split_ifs at h with h1 h2
  · exact hch r h
  · rcases List.mem_append.mp h with h | h
    · exact hch r h
    · obtain ⟨o, ho, rfl⟩ := List.mem_map.mp h
      exact ⟨Or.inr ⟨o, List.mem_of_mem_drop ho, rfl⟩, Or.inl rfl,
        by intro hc; simp [mkDeleted] at hc, rfl, rfl⟩
  · rcases List.mem_append.mp h with h | h
    · exact hch r h
    · obtain ⟨n, hn, rfl⟩ := List.mem_map.mp h
      exact ⟨Or.inl rfl, Or.inr ⟨n, List.mem_of_mem_drop hn, rfl⟩,
        by intro hc; simp [mkAdded] at hc, rfl, rfl⟩

/-- Shape of any result emitted for one key. -/
theorem mem_emitKey {cols : List String} {oldKept newKept : List Row}
    {oldGroups newGroups : List (String × List Nat)} {k : String}
    {a : List DiffResult} {r : DiffResult}
    (h : emitKey cols oldKept newKept oldGroups newGroups k = .ok a)
    (hr : r ∈ a) :
    (r.old_data = none ∨ ∃ o ∈ oldKept, r.old_data = some (rowDict cols o)) ∧
    (r.new_data = none ∨ ∃ n ∈ newKept, r.new_data = some (rowDict cols n)) ∧
    (r.change_type = .changed → ∃ c cs, r.changed_columns = some (c :: cs)) ∧
    r.row_index = 0 ∧ r.record_number = k := by
  simp only [emitKey] at h
  split_ifs at h with h1 h2
  · cases hf : fetchRows newKept (lookupGroup newGroups k) with
    | error e => rw [hf] at h; exact absurd h (by simp [Except.map])
    | ok rs =>
      rw [hf] at h
      simp only [Except.map, Except.ok.injEq] at h
      subst h
      obtain ⟨n, hn, rfl⟩ := List.mem_map.mp hr
      exact ⟨Or.inl rfl, Or.inr ⟨n, fetchRows_mem hf hn, rfl⟩,
        by intro hc; simp [mkAdded] at hc, rfl, rfl⟩
  · cases hf : fetchRows oldKept (lookupGroup oldGroups k) with
    | error e => rw [hf] at h; exact absurd h (by simp [Except.map])
    | ok rs =>
      rw [hf] at h
      simp only [Except.map, Except.ok.injEq] at h
      subst h
      obtain ⟨o, ho, rfl⟩ := List.mem_map.mp hr
      exact ⟨Or.inr ⟨o, fetchRows_mem hf ho, rfl⟩, Or.inl rfl,
        by intro hc; simp [mkDeleted] at hc, rfl, rfl⟩
  · cases hf : fetchRows oldKept (lookupGroup oldGroups k) with
    | error e => rw [hf] at h; exact Except.noConfusion h
    | ok oldRows =>
      rw [hf] at h
      cases hg : fetchRows newKept (lookupGroup newGroups k) with
      | error e =>
        rw [hg] at h
        exact Except.noConfusion h
      | ok newRows =>
        rw [hg] at h
        simp only [Except.bind, bind, pure, Except.pure, Except.ok.injEq] at h
        subst h
        obtain ⟨hOld, hNew, hCh, hIdx, hK⟩ := mem_compare_within_group hr
        refine ⟨?_, ?_, hCh, hIdx, hK⟩
        · rcases hOld with h0 | ⟨o, ho, h0⟩
          · exact Or.inl h0
          · exact Or.inr ⟨o, fetchRows_mem hf ho, h0⟩
        · rcases hNew with h0 | ⟨n, hn, h0⟩
          · exact Or.inl h0
          · exact Or.inr ⟨n, fetchRows_mem hg hn, h0⟩

/-- Any result of the emission phase comes from the body of one visited key. -/
theorem mem_emits {cols : List String} {oldKept newKept : List Row}
    {oldGroups newGroups : List (String × List Nat)} {ko : List String}
    {rs : List DiffResult} {r : DiffResult}
    (h : emits cols oldKept newKept oldGroups newGroups ko = .ok rs)
    (hr : r ∈ rs) :
    ∃ k ∈ ko, ∃ a, emitKey cols oldKept newKept oldGroups newGroups k = .ok a ∧
      r ∈ a := by
  induction ko generalizing rs with
  | nil =>
    simp only [emits] at h
    cases h
    simp at hr
  | cons k ks ih =>
    simp only [emits] at h
    cases he : emitKey cols oldKept newKept oldGroups newGroups k with
    | error e =>
      rw [he] at h
      exact absurd h (by simp [Except.bind, bind])
    | ok a =>
      rw [he] at h
      cases hrest : emits cols oldKept newKept oldGroups newGroups ks with
      | error e =>
        rw [hrest] at h
        exact absurd h (by simp [Except.bind, bind, pure])
      | ok b =>
        rw [hrest] at h
        simp only [Except.bind, bind, pure, Except.pure, Except.ok.injEq] at h
        subst h
        rcases List.mem_append.mp hr with hr | hr
        · exact ⟨k, List.mem_cons_self _ _, a, he, hr⟩
        · obtain ⟨k0, hk0, a0, ha0, hr0⟩ := ih hrest hr
          exact ⟨k0, List.mem_cons_of_mem _ hk0, a0, ha0, hr0⟩

/-- The emission phase of `compare` on permuted key enumerations: both runs
succeed or fail together, and successful runs produce permuted result lists. -/
theorem emits_perm {cols : List String} {oldKept newKept : List Row}
    {oldGroups newGroups : List (String × List Nat)} {ko₁ ko₂ : List String}
    (hperm : ko₁.Perm ko₂) {rs₁ : List DiffResult}
    (h : emits cols oldKept newKept oldGroups newGroups ko₁ = .ok rs₁) :
    ∃ rs₂, emits cols oldKept newKept oldGroups newGroups ko₂ = .ok rs₂ ∧
      rs₁.Perm rs₂ := by
  induction hperm generalizing rs₁ with
  | nil =>
    simp only [emits] at h
    cases h
    exact ⟨[], rfl, List.Perm.refl _⟩
  | cons x hsub ih =>
    rename_i tl₁ tl₂
    simp only [emits] at h ⊢
    cases he : emitKey cols oldKept newKept oldGroups newGroups x with
    | error e =>
      rw [he] at h
      exact absurd h (by simp [Except.bind, bind])
    | ok a =>
      rw [he] at h
      cases hrest : emits cols oldKept newKept oldGroups newGroups tl₁ with
      | error e =>
        rw [hrest] at h
        exact absurd h (by simp [Except.bind, bind, pure])
      | ok b =>
        rw [hrest] at h
        simp only [Except.bind, bind, pure, Except.pure, Except.ok.injEq] at h
        subst h
        obtain ⟨b₂, hb₂, hpb⟩ := ih hrest
        refine ⟨a ++ b₂, ?_, hpb.append_left a⟩
        rw [hb₂]
        rfl
  | swap x y l =>
    simp only [emits] at h ⊢
    cases hy : emitKey cols oldKept newKept oldGroups newGroups y with
    | error e =>
      rw [hy] at h
      exact absurd h (by simp [Except.bind, bind])
    | ok a =>
      rw [hy] at h
      cases hx : emitKey cols oldKept newKept oldGroups newGroups x with
      | error e =>
        rw [hx] at h
        exact absurd h (by simp [Except.bind, bind, pure])
      | ok b =>
        rw [hx] at h
        cases hrest : emits cols oldKept newKept oldGroups newGroups l with
        | error e =>
          rw [hrest] at h
          exact absurd h (by simp [Except.bind, bind, pure])
        | ok c =>
          rw [hrest] at h
          simp only [Except.bind, bind, pure, Except.pure, Except.ok.injEq] at h
          subst h
          refine ⟨b ++ (a ++ c), ?_, ?_⟩
          · rfl
          · have hstep : ((a ++ b) ++ c).Perm ((b ++ a) ++ c) :=
              List.perm_append_comm.append_right c
            rw [← List.append_assoc, ← List.append_assoc]
            exact hstep
  | trans p₁ p₂ ih₁ ih₂ =>
    obtain ⟨rs₂, h₂, hp₂⟩ := ih₁ h
    obtain ⟨rs₃, h₃, hp₃⟩ := ih₂ h₂
    exact ⟨rs₃, h₃, hp₂.trans hp₃⟩

theorem fields_of_eraseIdx_eq {r r0 : DiffResult} (h : eraseIdx r = eraseIdx r0) :
    r.change_type = r0.change_type ∧ r.old_data = r0.old_data ∧
    r.new_data = r0.new_data ∧ r.changed_columns = r0.changed_columns ∧
    r.record_number = r0.record_number := by
  cases r
  cases r0
  simp only [eraseIdx, DiffResult.mk.injEq] at h
  simp_all

/-- Every result of a successful `compare` run has its data taken from a
retained row of the corresponding filtered dataset, and `changed` results
carry a nonempty changed-column list. -/
theorem compare_mem_shape {cols : List String} {oldRows newRows : List Row}
    {ko : List String} {rs : List DiffResult} {r : DiffResult}
    (h : compare cols oldRows newRows ko = .ok rs) (hr : r ∈ rs) :
    (r.old_data = none ∨ ∃ o ∈ keptRows oldRows, r.old_data = some (rowDict cols o)) ∧
    (r.new_data = none ∨ ∃ n ∈ keptRows newRows, r.new_data = some (rowDict cols n)) ∧
    (r.change_type = .changed → ∃ c cs, r.changed_columns = some (c :: cs)) := by
  unfold compare at h
  split_ifs at h with hlen
  · cases he : emissionsOf cols oldRows newRows ko with
    | error e => rw [he] at h; exact Except.noConfusion h
    | ok ems =>
      rw [he] at h
      simp only [Except.map, Except.ok.injEq] at h
      subst h
      obtain ⟨r0, hr0, herase⟩ := mem_reindex hr
      have hr0s := mem_sortPhase hr0
      have he2 : emits cols (keptRows oldRows) (keptRows newRows)
          (group_by_record_number oldRows) (group_by_record_number newRows) ko =
          .ok ems := he
      obtain ⟨k, _, a, ha, hra⟩ := mem_emits he2 hr0s
      obtain ⟨hOld, hNew, hCh, _, _⟩ := mem_emitKey ha hra
      obtain ⟨hct, hod, hnd, hcc, _⟩ := fields_of_eraseIdx_eq herase
      rw [hct, hod, hnd, hcc]
      exact ⟨hOld, hNew, hCh⟩
  · cases h
    simp at hr

/-- All results of the emission phase carry `row_index = 0` (it is assigned
only by the final reindexing). -/
theorem emits_row_index_zero {cols : List String} {oldKept newKept : List Row}
    {oldGroups newGroups : List (String × List Nat)} {ko : List String}
    {rs : List DiffResult}
    (h : emits cols oldKept newKept oldGroups newGroups ko = .ok rs) :
    ∀ r ∈ rs, r.row_index = 0 := by
  intro r hr
  obtain ⟨k, _, a, ha, hra⟩ := mem_emits h hr
  exact (mem_emitKey ha hra).2.2.2.1

theorem numKey_isSome_iff (s : String) :
    (numKey s).isSome ↔ pyNumCheck s = true ∧ (pyFloatVal s).isSome := by
  unfold numKey
  by_cases h : pyNumCheck s <;> simp [h]

theorem sortPhase_eq_of_all {l : List DiffResult}
    (h : ∀ r ∈ l, (numKey r.record_number).isSome) :
    sortPhase l = sortDesc sortKeyVal l := by
  unfold sortPhase
  rw [if_pos, if_pos]
  · rw [List.all_eq_true]
    intro r hr
    exact ((numKey_isSome_iff _).mp (h r hr)).2
  · rw [List.all_eq_true]
    intro r hr
    exact ((numKey_isSome_iff _).mp (h r hr)).1

theorem sortPhase_eq_of_not_all {l : List DiffResult}
    (h : ¬ ∀ r ∈ l, (numKey r.record_number).isSome) :
    sortPhase l = l := by
  unfold sortPhase
  push_neg at h
  obtain ⟨r, hr, hnot⟩ := h
  have hnot2 : ¬ (pyNumCheck r.record_number = true ∧
      (pyFloatVal r.record_number).isSome = true) := by
    intro hc
    exact hnot ((numKey_isSome_iff _).mpr ⟨hc.1, hc.2⟩)
  rw [not_and_or] at hnot2
  by_cases h1 : l.all (fun r => pyNumCheck r.record_number)
  · rcases hnot2 with hn | hn
    · exfalso
      rw [List.all_eq_true] at h1
      exact hn (h1 r hr)
    · rw [if_pos h1, if_neg]
      intro h2
      rw [List.all_eq_true] at h2
      exact hn (h2 r hr)
  · rw [if_neg h1]

/-- C1: on every pair of column-aligned datasets, a successful `compare` run
emits only results whose `old_data` (resp. `new_data`) is the cell mapping of
some row retained by the record-number filter of the old (resp. new) dataset;
filtered-out rows contribute no data to any result. -/
theorem C1_results_only_from_retained_rows
    (cols : List String) (oldRows newRows : List Row) (ko : List String)
    (rs : List DiffResult) (r : DiffResult)
    (h : compare cols oldRows newRows ko = .ok rs) (hr : r ∈ rs) :
    (r.old_data = none ∨ ∃ o ∈ keptRows oldRows, r.old_data = some (rowDict cols o)) ∧
    (r.new_data = none ∨ ∃ n ∈ keptRows newRows, r.new_data = some (rowDict cols n)) :=
  ⟨(compare_mem_shape h hr).1, (compare_mem_shape h hr).2.1⟩

/-- Witness for C1 at a concrete input: a deleted result whose data is the
mapping of the single retained old row. -/
theorem C1_results_only_from_retained_rows_witness :
    compare ["a", "rec"] [[some "x", some "1"]] [] ["1"] =
      .ok [⟨1, .deleted, some [("a", some "x"), ("rec", some "1")], none, none, "1"⟩] ∧
    (((⟨1, .deleted, some [("a", some "x"), ("rec", some "1")], none, none,
        "1"⟩ : DiffResult).old_data = none ∨
      ∃ o ∈ keptRows [[some "x", some "1"]],
        (⟨1, .deleted, some [("a", some "x"), ("rec", some "1")], none, none,
          "1"⟩ : DiffResult).old_data = some (rowDict ["a", "rec"] o)) ∧
     ((⟨1, .deleted, some [("a", some "x"), ("rec", some "1")], none, none,
        "1"⟩ : DiffResult).new_data = none ∨
      ∃ n ∈ keptRows ([] : List Row),
        (⟨1, .deleted, some [("a", some "x"), ("rec", some "1")], none, none,
          "1"⟩ : DiffResult).new_data = some (rowDict ["a", "rec"] n))) :=
  ⟨by rfl,
    C1_results_only_from_retained_rows ["a", "rec"] [[some "x", some "1"]] []
      ["1"] _ _ (by rfl) (by decide)⟩

/-- C2 counterexample: the key-visitation order of `compare` is the iteration
order of a Python set; two valid enumerations of the same combined key set
yield different result lists, so the output is a function of the unspecified
set-iteration order, contrary to the claim. -/
theorem C2_visitation_order_counterexample :
    (["A", "B"] : List String).Perm
      (unionKeys [[some "x", some "A"], [some "y", some "B"]] []) ∧
    (["B", "A"] : List String).Perm
      (unionKeys [[some "x", some "A"], [some "y", some "B"]] []) ∧
    compare ["a", "rec"] [[some "x", some "A"], [some "y", some "B"]] [] ["A", "B"] =
      .ok [⟨1, .deleted, some [("a", some "x"), ("rec", some "A")], none, none, "A"⟩,
           ⟨2, .deleted, some [("a", some "y"), ("rec", some "B")], none, none, "B"⟩] ∧
    compare ["a", "rec"] [[some "x", some "A"], [some "y", some "B"]] [] ["B", "A"] =
      .ok [⟨1, .deleted, some [("a", some "y"), ("rec", some "B")], none, none, "B"⟩,
           ⟨2, .deleted, some [("a", some "x"), ("rec", some "A")], none, none, "A"⟩] ∧
    ([⟨1, .deleted, some [("a", some "x"), ("rec", some "A")], none, none, "A"⟩,
      ⟨2, .deleted, some [("a", some "y"), ("rec", some "B")], none, none, "B"⟩] :
        List DiffResult) ≠
      [⟨1, .deleted, some [("a", some "y"), ("rec", some "B")], none, none, "B"⟩,
       ⟨2, .deleted, some [("a", some "x"), ("rec", some "A")], none, none, "A"⟩] :=
  ⟨by decide, by decide, by rfl, by rfl, by decide⟩

/-- C2 amended: the pre-sort result list depends on the set-iteration order
only up to permutation: any two enumerations of the key set make the emission
phase succeed or fail together, and successful runs emit permuted lists. -/
theorem C2_emission_order_invariance_up_to_permutation
    (cols : List String) (oldRows newRows : List Row) (ko₁ ko₂ : List String)
    (rs₁ : List DiffResult) (hperm : ko₁.Perm ko₂)
    (h : emissionsOf cols oldRows newRows ko₁ = .ok rs₁) :
    ∃ rs₂, emissionsOf cols oldRows newRows ko₂ = .ok rs₂ ∧ rs₁.Perm rs₂ :=
  emits_perm hperm h

/-- Witness for the amended C2 at a concrete input. -/
theorem C2_emission_order_invariance_up_to_permutation_witness :
    (["A", "B"] : List String).Perm ["B", "A"] ∧
    emissionsOf ["a", "rec"] [[some "x", some "A"], [some "y", some "B"]] []
      ["A", "B"] =
      .ok [⟨0, .deleted, some [("a", some "x"), ("rec", some "A")], none, none, "A"⟩,
           ⟨0, .deleted, some [("a", some "y"), ("rec", some "B")], none, none, "B"⟩] ∧
    (∃ rs₂, emissionsOf ["a", "rec"] [[some "x", some "A"], [some "y", some "B"]]
        [] ["B", "A"] = .ok rs₂ ∧
      ([⟨0, .deleted, some [("a", some "x"), ("rec", some "A")], none, none, "A"⟩,
        ⟨0, .deleted, some [("a", some "y"), ("rec", some "B")], none, none, "B"⟩] :
          List DiffResult).Perm rs₂) :=
  ⟨by decide, by rfl,
    C2_emission_order_invariance_up_to_permutation ["a", "rec"]
      [[some "x", some "A"], [some "y", some "B"]] [] ["A", "B"] ["B", "A"] _
      (by decide) (by rfl)⟩

/-- C3 counterexample: invoked on datasets with no column at the configured
record-number position, `compare` does not raise; it silently returns an
empty result list. -/
theorem C3_missing_record_column_counterexample :
    (["only"] : List String).length ≤ 1 ∧
    compare ["only"] [[some "v"]] [[some "w"]] [] = .ok [] ∧
    compare ["only"] [[some "v"]] [[some "w"]] [] ≠ .error () :=
  ⟨by decide, by rfl, by
    intro hc
    have hok : compare ["only"] [[some "v"]] [[some "w"]] [] = .ok [] := by rfl
    rw [hok] at hc
    exact Except.noConfusion hc⟩

/-- C3 amended: when the old dataset has no column at the configured position
(index 1), `compare` recovers by returning an empty result list instead of
failing fast. -/
theorem C3_missing_record_column_returns_empty
    (cols : List String) (oldRows newRows : List Row) (ko : List String)
    (h : cols.length ≤ 1) :
    compare cols oldRows newRows ko = .ok [] := by
  unfold compare
  rw [if_neg]
  simp only [RECORD_NUMBER_COL_IDX]
  omega

/-- Witness for the amended C3 at a concrete input. -/
theorem C3_missing_record_column_returns_empty_witness :
    (["only"] : List String).length ≤ 1 ∧
    compare ["only"] [[some "v"], [none]] [[some "w"]] ["k"] = .ok [] :=
  ⟨by decide,
    C3_missing_record_column_returns_empty ["only"] [[some "v"], [none]]
      [[some "w"]] ["k"] (by decide)⟩

theorem reindex_length (l : List DiffResult) : (reindex l).length = l.length := by
  simp [reindex]

theorem sortKeyVal_set_index (i : Nat) (r : DiffResult) :
    sortKeyVal { r with row_index := i } = sortKeyVal r := by
  cases r
  rfl

theorem stripIdx_eq_self {l : List DiffResult} (h : ∀ r ∈ l, r.row_index = 0) :
    stripIdx l = l := by
  unfold stripIdx
  have h2 : l.map eraseIdx = l.map id :=
    List.map_congr_left (fun r hr => eraseIdx_eq_self (h r hr))
  rw [h2, List.map_id]

theorem reindex_pairwise {X : List DiffResult}
    (h : X.Pairwise (fun a b => sortKeyVal b ≤ sortKeyVal a)) :
    (reindex X).Pairwise (fun a b => sortKeyVal b ≤ sortKeyVal a) := by
  unfold reindex
  rw [List.pairwise_map]
  have h2 : X.enum.Pairwise (fun p q => sortKeyVal q.2 ≤ sortKeyVal p.2) := by
    have h3 := h
    rw [← List.enum_map_snd X, List.pairwise_map] at h3
    exact h3
  refine h2.imp ?_
  intro p q hpq
  rw [sortKeyVal_set_index, sortKeyVal_set_index]
  exact hpq

theorem stripIdx_filter (l : List DiffResult) (q : ℚ) :
    (stripIdx l).filter (fun r => sortKeyVal r == q) =
      stripIdx (l.filter (fun r => sortKeyVal r == q)) := by
  unfold stripIdx
  rw [List.filter_map]
  have h : ((fun r => sortKeyVal r == q) ∘ eraseIdx) = (fun r => sortKeyVal r == q) := by
    funext r
    simp only [Function.comp]
    rw [show eraseIdx r = { r with row_index := 0 } from rfl, sortKeyVal_set_index]
  rw [h]

/-- C4: the final ordering contract of `compare`.  Fix a key enumeration and
a successful run with emission-phase output `ems`.  Then `row_index` is
reassigned densely as 1..N over the final list; if every record number parses
numerically (the `isdigit` shape test plus a successful `float()`, which on
normalized record numbers is exactly parsing as a signed decimal numeral) the
final list is sorted descending by numeric key value and, within each key
value, keeps the emission order (a stable sort); if any record number fails
to parse, the emission order is kept unchanged. -/
theorem C4_sort_descending_or_skip
    (cols : List String) (oldRows newRows : List Row) (ko : List String)
    (rs ems : List DiffResult)
    (hlen : RECORD_NUMBER_COL_IDX < cols.length)
    (h : compare cols oldRows newRows ko = .ok rs)
    (hems : emissionsOf cols oldRows newRows ko = .ok ems) :
    rs.map (fun r => r.row_index) = List.range' 1 rs.length ∧
    ((∀ r ∈ ems, (numKey r.record_number).isSome) →
      rs.Pairwise (fun a b => sortKeyVal b ≤ sortKeyVal a) ∧
      ∀ q : ℚ, (stripIdx rs).filter (fun r => sortKeyVal r == q) =
        ems.filter (fun r => sortKeyVal r == q)) ∧
    ((¬ ∀ r ∈ ems, (numKey r.record_number).isSome) → stripIdx rs = ems) := by
  unfold compare at h
  rw [if_pos hlen, hems] at h
  simp only [Except.map, Except.ok.injEq] at h
  subst h
  have hz : ∀ r ∈ ems, r.row_index = 0 := by
    have hems2 : emits cols (keptRows oldRows) (keptRows newRows)
        (group_by_record_number oldRows) (group_by_record_number newRows) ko =
        .ok ems := hems
    exact emits_row_index_zero hems2
  refine ⟨?_, ?_, ?_⟩
  · rw [reindex_row_indices, reindex_length]
  · intro hall
    rw [sortPhase_eq_of_all hall]
    constructor
    · exact reindex_pairwise (sortDesc_pairwise sortKeyVal ems)
    · intro q
      rw [stripIdx_reindex, stripIdx_filter, sortDesc_filter]
      refine stripIdx_eq_self ?_
      intro r hr
      exact hz r (List.mem_of_mem_filter hr)
  · intro hnot
    rw [sortPhase_eq_of_not_all hnot, stripIdx_reindex]
    exact stripIdx_eq_self hz

/-- Witness for C4 at the spec's own example: record numbers 10, 2, 30 sort
descending to 30, 10, 2 with row indices 1, 2, 3. -/
theorem C4_sort_descending_or_skip_witness :
    RECORD_NUMBER_COL_IDX < (["a", "rec"] : List String).length ∧
    compare ["a", "rec"]
      [[some "x", some "10"], [some "y", some "2"], [some "z", some "30"]] []
      ["10", "2", "30"] =
      .ok [⟨1, .deleted, some [("a", some "z"), ("rec", some "30")], none, none, "30"⟩,
           ⟨2, .deleted, some [("a", some "x"), ("rec", some "10")], none, none, "10"⟩,
           ⟨3, .deleted, some [("a", some "y"), ("rec", some "2")], none, none, "2"⟩] ∧
    emissionsOf ["a", "rec"]
      [[some "x", some "10"], [some "y", some "2"], [some "z", some "30"]] []
      ["10", "2", "30"] =
      .ok [⟨0, .deleted, some [("a", some "x"), ("rec", some "10")], none, none, "10"⟩,
           ⟨0, .deleted, some [("a", some "y"), ("rec", some "2")], none, none, "2"⟩,
           ⟨0, .deleted, some [("a", some "z"), ("rec", some "30")], none, none, "30"⟩] ∧
    ([⟨1, .deleted, some [("a", some "z"), ("rec", some "30")], none, none, "30"⟩,
      ⟨2, .deleted, some [("a", some "x"), ("rec", some "10")], none, none, "10"⟩,
      ⟨3, .deleted, some [("a", some "y"), ("rec", some "2")], none, none, "2"⟩] :
        List DiffResult).map (fun r => r.row_index) =
      List.range' 1 ([⟨1, .deleted, some [("a", some "z"), ("rec", some "30")],
        none, none, "30"⟩,
           ⟨2, .deleted, some [("a", some "x"), ("rec", some "10")], none, none, "10"⟩,
           ⟨3, .deleted, some [("a", some "y"), ("rec", some "2")], none, none,
            "2"⟩] : List DiffResult).length ∧
    ([⟨1, .deleted, some [("a", some "z"), ("rec", some "30")], none, none, "30"⟩,
      ⟨2, .deleted, some [("a", some "x"), ("rec", some "10")], none, none, "10"⟩,
      ⟨3, .deleted, some [("a", some "y"), ("rec", some "2")], none, none, "2"⟩] :
        List DiffResult).Pairwise (fun a b => sortKeyVal b ≤ sortKeyVal a) := by
  have h := C4_sort_descending_or_skip ["a", "rec"]
    [[some "x", some "10"], [some "y", some "2"], [some "z", some "30"]] []
    ["10", "2", "30"]
    [⟨1, .deleted, some [("a", some "z"), ("rec", some "30")], none, none, "30"⟩,
     ⟨2, .deleted, some [("a", some "x"), ("rec", some "10")], none, none, "10"⟩,
     ⟨3, .deleted, some [("a", some "y"), ("rec", some "2")], none, none, "2"⟩]
    [⟨0, .deleted, some [("a", some "x"), ("rec", some "10")], none, none, "10"⟩,
     ⟨0, .deleted, some [("a", some "y"), ("rec", some "2")], none, none, "2"⟩,
     ⟨0, .deleted, some [("a", some "z"), ("rec", some "30")], none, none, "30"⟩]
    (by decide) (by decide) (by decide)
  exact ⟨by decide, by decide, by decide, h.1, (h.2.1 (by decide)).1⟩

/-- C9: every `changed` result of a successful `compare` run carries a
nonempty `changed_columns` list, and a positionally matched old/new row pair
with zero differing columns under the null-aware cell comparison produces no
result at all: the positional `changed` pass over such a pair equals the pass
without it, so no empty-difference `changed` entry is ever constructed. -/
theorem C9_changed_results_have_nonempty_columns (cols : List String) :
    (∀ (oldRows newRows : List Row) (ko : List String)
      (rs : List DiffResult) (r : DiffResult),
      compare cols oldRows newRows ko = .ok rs → r ∈ rs →
      r.change_type = .changed → ∃ c cs, r.changed_columns = some (c :: cs)) ∧
    (∀ (k : String) (o n : Row) (rest : List (Row × Row)),
      diff_cells cols o n = [] →
      changedResults cols k ((o, n) :: rest) = changedResults cols k rest) := by
  constructor
  · intro oldRows newRows ko rs r h hr hct
    exact (compare_mem_shape h hr).2.2 hct
  · intro k o n rest hd
    simp only [changedResults]
    rw [hd]

/-- Witness for C9 at concrete inputs: a single changed column `a`, and a
silent pair (identical old and new row) that is skipped by the positional
pass. -/
theorem C9_changed_results_have_nonempty_columns_witness :
    compare ["a", "rec"] [[some "1", some "A"]] [[some "2", some "A"]] ["A"] =
      .ok [⟨1, .changed, some [("a", some "1"), ("rec", some "A")],
        some [("a", some "2"), ("rec", some "A")], some ["a"], "A"⟩] ∧
    (∃ c cs, (⟨1, .changed, some [("a", some "1"), ("rec", some "A")],
        some [("a", some "2"), ("rec", some "A")], some ["a"], "A"⟩ :
          DiffResult).changed_columns = some (c :: cs)) ∧
    changedResults ["a", "rec"] "A"
        [([some "1", some "A"], [some "1", some "A"])] =
      changedResults ["a", "rec"] "A" [] :=
  ⟨by rfl,
    (C9_changed_results_have_nonempty_columns ["a", "rec"]).1
      [[some "1", some "A"]] [[some "2", some "A"]] ["A"] _ _
      (by rfl) (by decide) (by rfl),
    (C9_changed_results_have_nonempty_columns ["a", "rec"]).2 "A"
      [some "1", some "A"] [some "1", some "A"] [] (by rfl)⟩

end DiffEngine

namespace MonthlySales

theorem sheetFold_names (old new : SheetData) (ms : List String)
    (acc : List MonthDiff × Nat) :
    ((ms.foldl (sheetFoldStep old new) acc).1).map (fun md => md.month_name) =
      (acc.1).map (fun md => md.month_name) ++
        ms.filter (fun m => hasChanges old new m) := by
  induction ms generalizing acc with
  | nil => simp
  | cons m ms ih =>
    rw [List.foldl_cons, ih, List.filter_cons]
    by_cases hm : hasChanges old new m
    · have hm2 := hm
      unfold hasChanges at hm2
      have hstep : (sheetFoldStep old new acc m).1 = acc.1 ++
          [⟨m, (acc.2, acc.2 + 3),
            compare_blocks (lookupBlock old m) (lookupBlock new m)⟩] := by
        simp only [sheetFoldStep]
        rw [if_pos hm2]
      rw [hstep]
      simp [hm]
    · have hm2 := hm
      unfold hasChanges at hm2
      have hstep : sheetFoldStep old new acc m = acc := by
        simp only [sheetFoldStep]
        rw [if_neg]
        exact hm2
      rw [hstep]
      simp [hm]

theorem sheetFold_mem (old new : SheetData) (ms : List String)
    (acc : List MonthDiff × Nat) (md : MonthDiff)
    (h : md ∈ (ms.foldl (sheetFoldStep old new) acc).1) :
    md ∈ acc.1 ∨
      (md.month_name ∈ ms ∧
        md.cell_diffs = compare_blocks (lookupBlock old md.month_name)
          (lookupBlock new md.month_name) ∧
        hasChanges old new md.month_name = true) := by
  induction ms generalizing acc with
  | nil => exact Or.inl h
  | cons m ms ih =>
    rw [List.foldl_cons] at h
    rcases ih (sheetFoldStep old new acc m) h with hacc | hrest
    · by_cases hm : hasChanges old new m
      · have hm2 := hm
        unfold hasChanges at hm2
        have hstep : (sheetFoldStep old new acc m).1 = acc.1 ++
            [⟨m, (acc.2, acc.2 + 3),
              compare_blocks (lookupBlock old m) (lookupBlock new m)⟩] := by
          simp only [sheetFoldStep]
          rw [if_pos hm2]
        rw [hstep] at hacc
        rcases List.mem_append.mp hacc with hacc | hnew
        · exact Or.inl hacc
        · rcases List.mem_singleton.mp hnew with rfl
          exact Or.inr ⟨List.mem_cons_self _ _, rfl, hm⟩
      · have hm2 := hm
        unfold hasChanges at hm2
        have hstep : sheetFoldStep old new acc m = acc := by
          simp only [sheetFoldStep]
          rw [if_neg]
          exact hm2
        rw [hstep] at hacc
        exact Or.inl hacc
    · exact Or.inr ⟨List.mem_cons_of_mem _ hrest.1, hrest.2⟩

/-- C7: `compare_sheets` emits months exactly for the labels of the new
sheet's declared order that are present in both sheets and whose block
comparison has a non-`unchanged` cell, in that order; a label present in only
one sheet never appears; and (provided the declared order covers the common
labels, as the reader guarantees) a common label is emitted if and only if
its cell-diff list contains a non-`unchanged` entry. -/
theorem C7_common_labels_in_new_order
    (old new : SheetData)
    (horder : ∀ m, m ∈ sheetKeys old → m ∈ sheetKeys new → m ∈ new.month_order) :
    (compare_sheets old new).map (fun md => md.month_name) =
      new.month_order.filter
        (fun m => decide (m ∈ sheetKeys old ∧ m ∈ sheetKeys new) &&
          hasChanges old new m) ∧
    (∀ md ∈ compare_sheets old new,
      md.month_name ∈ sheetKeys old ∧ md.month_name ∈ sheetKeys new ∧
      md.cell_diffs = compare_blocks (lookupBlock old md.month_name)
        (lookupBlock new md.month_name) ∧
      md.cell_diffs.any (fun cd => cd.change_type ≠ .unchanged)) ∧
    (∀ m, m ∈ sheetKeys old → m ∈ sheetKeys new →
      ((∃ md ∈ compare_sheets old new, md.month_name = m) ↔
        hasChanges old new m)) := by
  have hmap : (compare_sheets old new).map (fun md => md.month_name) =
      new.month_order.filter
        (fun m => decide (m ∈ sheetKeys old ∧ m ∈ sheetKeys new) &&
          hasChanges old new m) := by
    unfold compare_sheets
    rw [sheetFold_names, List.filter_filter]
    simp only [List.map_nil, List.nil_append]
    apply List.filter_congr
    intro m _
    rw [Bool.and_comm]
  have hmem : ∀ md ∈ compare_sheets old new,
      md.month_name ∈ sheetKeys old ∧ md.month_name ∈ sheetKeys new ∧
      md.cell_diffs = compare_blocks (lookupBlock old md.month_name)
        (lookupBlock new md.month_name) ∧
      md.cell_diffs.any (fun cd => cd.change_type ≠ .unchanged) := by
    intro md hmd
    unfold compare_sheets at hmd
    rcases sheetFold_mem old new _ _ md hmd with hacc | ⟨hin, hcds, hch⟩
    · simp at hacc
    · rcases List.mem_filter.mp hin with ⟨_, hcommon⟩
      rw [decide_eq_true_eq] at hcommon
      refine ⟨hcommon.1, hcommon.2, hcds, ?_⟩
      rw [hcds]
      exact hch
  refine ⟨hmap, hmem, ?_⟩
  intro m hmo hmn
  constructor
  · rintro ⟨md, hmd, rfl⟩
    have hcds := (hmem md hmd).2.2.1
    have hany := (hmem md hmd).2.2.2
    unfold hasChanges
    rw [← hcds]
    exact hany
  · intro hch
    have hmem2 : m ∈ (compare_sheets old new).map (fun md => md.month_name) := by
      rw [hmap, List.mem_filter]
      exact ⟨horder m hmo hmn, by simp [hmo, hmn, hch]⟩
    obtain ⟨md, hmd, hname⟩ := List.mem_map.mp hmem2
    exact ⟨md, hmd, hname⟩

/-- Witness for C7 at concrete sheets: label 1月 is common and changed (kept),
2月 is common and unchanged (dropped), 3月 exists only in the new sheet
(dropped), 4月 exists only in the old sheet (dropped). -/
theorem C7_common_labels_in_new_order_witness :
    (∀ m, m ∈ sheetKeys ⟨[("1月", [[some 1]]), ("2月", [[some 7]]),
        ("4月", [[some 5]])], ["1月", "2月", "4月"]⟩ →
      m ∈ sheetKeys ⟨[("2月", [[some 7]]), ("3月", [[some 9]]),
        ("1月", [[some 2]])], ["2月", "3月", "1月"]⟩ →
      m ∈ (⟨[("2月", [[some 7]]), ("3月", [[some 9]]), ("1月", [[some 2]])],
        ["2月", "3月", "1月"]⟩ : SheetData).month_order) ∧
    (compare_sheets ⟨[("1月", [[some 1]]), ("2月", [[some 7]]),
        ("4月", [[some 5]])], ["1月", "2月", "4月"]⟩
      ⟨[("2月", [[some 7]]), ("3月", [[some 9]]), ("1月", [[some 2]])],
        ["2月", "3月", "1月"]⟩).map (fun md => md.month_name) =
      ["1月"] ∧
    (∀ m, m ∈ sheetKeys ⟨[("1月", [[some 1]]), ("2月", [[some 7]]),
        ("4月", [[some 5]])], ["1月", "2月", "4月"]⟩ →
      m ∈ sheetKeys ⟨[("2月", [[some 7]]), ("3月", [[some 9]]),
        ("1月", [[some 2]])], ["2月", "3月", "1月"]⟩ →
      ((∃ md ∈ compare_sheets ⟨[("1月", [[some 1]]), ("2月", [[some 7]]),
          ("4月", [[some 5]])], ["1月", "2月", "4月"]⟩
        ⟨[("2月", [[some 7]]), ("3月", [[some 9]]), ("1月", [[some 2]])],
          ["2月", "3月", "1月"]⟩, md.month_name = m) ↔
        hasChanges ⟨[("1月", [[some 1]]), ("2月", [[some 7]]),
          ("4月", [[some 5]])], ["1月", "2月", "4月"]⟩
          ⟨[("2月", [[some 7]]), ("3月", [[some 9]]), ("1月", [[some 2]])],
            ["2月", "3月", "1月"]⟩ m)) := by
  have h := C7_common_labels_in_new_order
    ⟨[("1月", [[some 1]]), ("2月", [[some 7]]), ("4月", [[some 5]])],
      ["1月", "2月", "4月"]⟩
    ⟨[("2月", [[some 7]]), ("3月", [[some 9]]), ("1月", [[some 2]])],
      ["2月", "3月", "1月"]⟩
    (by decide)
  refine ⟨by decide, ?_, h.2.2⟩
  rw [h.1]
  decide

end MonthlySales

theorem ratSub_eq (a b : ℚ) : ratSub a b = a - b := by
  unfold ratSub
  have ha : ((a.den : ℚ)) ≠ 0 := Nat.cast_ne_zero.mpr a.den_nz
  have hb : ((b.den : ℚ)) ≠ 0 := Nat.cast_ne_zero.mpr b.den_nz
  rw [Rat.mkRat_eq_div]
  conv_rhs => rw [← Rat.num_div_den a, ← Rat.num_div_den b]
  rw [div_sub_div _ _ ha hb]
  push_cast
  ring_nf

theorem ratAbs_eq (q : ℚ) : ratAbs q = |q| := by
  unfold ratAbs
  by_cases h : q < 0
  · rw [if_pos h, abs_of_neg h, Rat.mkRat_eq_div]
    push_cast
    rw [neg_div, Rat.num_div_den]
  · rw [if_neg h, abs_of_nonneg (not_lt.mp h)]

namespace MonthlySales

theorem tolerance_eq : tolerance = 1 / 100 := by
  unfold tolerance
  rw [Rat.mkRat_eq_div]
  norm_num

/-- C8: the month-block cell classification.  Both values null-or-zero gives
`unchanged`; otherwise, with null read as 0 and `diff = new - old`,
`|diff| ≤ 0.01` gives `unchanged`, `diff > 0.01` gives `increased` and
`diff < -0.01` gives `decreased`; in particular 100 → 100.005 is `unchanged`
and 100 → 100.02 is `increased`. -/
theorem C8_tolerance_classification :
    (∀ o n : Option ℚ, determine_change_type o n = specChangeType o n) ∧
    determine_change_type (some 100) (some (100 + 5 / 1000)) = .unchanged ∧
    determine_change_type (some 100) (some (100 + 2 / 100)) = .increased := by
  have hpoint : ∀ o n : Option ℚ, determine_change_type o n = specChangeType o n := by
    intro o n
    have hiff : ((o = none ∨ o = some 0) ∧ (n = none ∨ n = some 0)) ↔
        (o.getD 0 = 0 ∧ n.getD 0 = 0) := by
      rcases o with _ | x <;> rcases n with _ | y <;> simp
    simp only [determine_change_type, specChangeType, ratSub_eq, ratAbs_eq,
      tolerance_eq]
    by_cases h1 : (o = none ∨ o = some 0) ∧ (n = none ∨ n = some 0)
    · rw [if_pos h1, if_pos (hiff.mp h1)]
    · rw [if_neg h1, if_neg (fun hc => h1 (hiff.mpr hc))]
      by_cases h2 : |n.getD 0 - o.getD 0| ≤ 1 / 100
      · rw [if_pos h2, if_pos h2]
      · rw [if_neg h2, if_neg h2]
        by_cases h3 : 0 < n.getD 0 - o.getD 0
        · have hgt : 1 / 100 < n.getD 0 - o.getD 0 := by
            rw [not_le] at h2
            rwa [abs_of_pos h3] at h2
          rw [if_pos h3, if_pos hgt]
        · have hng : ¬ (1 / 100 : ℚ) < n.getD 0 - o.getD 0 := by
            rw [not_lt] at h3
            intro hc
            linarith
          rw [if_neg h3, if_neg hng]
  refine ⟨hpoint, ?_, ?_⟩
  · rw [hpoint]
    simp only [specChangeType, Option.getD_some]
    have e1 : (100 + 5 / 1000 : ℚ) - 100 = 5 / 1000 := by ring
    rw [if_neg (by norm_num)]
    simp only [e1]
    rw [if_pos (show |(5 : ℚ) / 1000| ≤ 1 / 100 by
      rw [abs_of_pos (by norm_num)]
      norm_num)]
  · rw [hpoint]
    simp only [specChangeType, Option.getD_some]
    have e1 : (100 + 2 / 100 : ℚ) - 100 = 2 / 100 := by ring
    rw [if_neg (by norm_num)]
    simp only [e1]
    rw [if_neg (show ¬ |(2 : ℚ) / 100| ≤ 1 / 100 by
      rw [abs_of_pos (by norm_num)]
      norm_num),
      if_pos (by norm_num)]

end MonthlySales

namespace DataNormalizer

theorem alignFold_spec (cs : List String) (d : Df) :
    ∃ extra : List String,
      (cs.foldl (fun acc c => if c ∈ acc.cols then acc else addNullCol acc c)
        d).cols = d.cols ++ extra ∧
      (cs.foldl (fun acc c => if c ∈ acc.cols then acc else addNullCol acc c)
        d).rows = d.rows.map (fun r => r ++ List.replicate extra.length none) ∧
      (∀ c ∈ extra, c ∈ cs ∧ c ∉ d.cols) ∧
      (extra = [] ↔ ∀ c ∈ cs, c ∈ d.cols) := by
  induction cs generalizing d with
  | nil =>
    refine ⟨[], by simp, ?_, by simp, by simp⟩
    simp only [List.foldl_nil, List.replicate_zero, List.length_nil]
    have : d.rows.map (fun r => r ++ ([] : List Cell)) = d.rows.map id := by
      apply List.map_congr_left
      intro r _
      simp
    rw [this, List.map_id]
  | cons c cs ih =>
    rw [List.foldl_cons]
    by_cases hc : c ∈ d.cols
    · rw [if_pos hc]
      obtain ⟨extra, h1, h2, h3, h4⟩ := ih d
      refine ⟨extra, h1, h2, ?_, ?_⟩
      · intro c0 hc0
        exact ⟨List.mem_cons_of_mem _ (h3 c0 hc0).1, (h3 c0 hc0).2⟩
      · rw [h4, List.forall_mem_cons]
        tauto
    · rw [if_neg hc]
      obtain ⟨extra, h1, h2, h3, h4⟩ := ih (addNullCol d c)
      refine ⟨c :: extra, ?_, ?_, ?_, ?_⟩
      · rw [h1]
        simp [addNullCol]
      · rw [h2]
        simp only [addNullCol, List.map_map]
        apply List.map_congr_left
        intro r _
        simp only [Function.comp, List.length_cons, List.replicate_succ,
          List.append_assoc, List.singleton_append]
      · intro c0 hc0
        rcases List.mem_cons.mp hc0 with rfl | hc0
        · exact ⟨List.mem_cons_self _ _, hc⟩
        · refine ⟨List.mem_cons_of_mem _ (h3 c0 hc0).1, ?_⟩
          intro hmem
          exact (h3 c0 hc0).2 (by simp [addNullCol, hmem])
      · constructor
        · intro hcontra
          exact absurd hcontra (by simp)
        · intro hall
          exact absurd (hall c (List.mem_cons_self _ _)) hc

/-- C10: `align_columns` mutates its old argument in place: after the call
the caller's old object has gained every column of the new dataset that it
lacked (appended, filled with `Null` on every row), so the old input differs
from its original value whenever at least one such column exists. -/
theorem C10_align_columns_mutates_old (old new : Df)
    (hmiss : ∃ c ∈ new.cols, c ∉ old.cols) :
    ∃ extra : List String, extra ≠ [] ∧
      ((align_columns old new).2).cols = old.cols ++ extra ∧
      ((align_columns old new).2).rows =
        old.rows.map (fun r => r ++ List.replicate extra.length none) ∧
      (∀ c ∈ extra, c ∈ new.cols ∧ c ∉ old.cols) ∧
      (align_columns old new).2 ≠ old := by
  obtain ⟨extra, h1, h2, h3, h4⟩ := alignFold_spec new.cols old
  have hmut : (align_columns old new).2 =
      new.cols.foldl (fun acc c => if c ∈ acc.cols then acc else addNullCol acc c)
        old := rfl
  have hne : extra ≠ [] := by
    intro hnil
    obtain ⟨c, hcn, hco⟩ := hmiss
    exact hco (h4.mp hnil c hcn)
  refine ⟨extra, hne, by rw [hmut, h1], by rw [hmut, h2], h3, ?_⟩
  intro heq
  have hcols : ((align_columns old new).2).cols = old.cols := by rw [heq]
  rw [hmut, h1] at hcols
  have hlen := congrArg List.length hcols
  rw [List.length_append] at hlen
  have : extra.length = 0 := by omega
  exact hne (List.length_eq_zero.mp this)

/-- Witness for C10 at a concrete input: the new dataset has column `b`
absent from the old one. -/
theorem C10_align_columns_mutates_old_witness :
    (∃ c ∈ (⟨["a", "b"], [[some "x", some "y"]]⟩ : Df).cols,
      c ∉ (⟨["a"], [[some "1"]]⟩ : Df).cols) ∧
    (∃ extra : List String, extra ≠ [] ∧
      ((align_columns ⟨["a"], [[some "1"]]⟩
        ⟨["a", "b"], [[some "x", some "y"]]⟩).2).cols =
        (⟨["a"], [[some "1"]]⟩ : Df).cols ++ extra ∧
      ((align_columns ⟨["a"], [[some "1"]]⟩
        ⟨["a", "b"], [[some "x", some "y"]]⟩).2).rows =
        (⟨["a"], [[some "1"]]⟩ : Df).rows.map
          (fun r => r ++ List.replicate extra.length none) ∧
      (∀ c ∈ extra, c ∈ (⟨["a", "b"], [[some "x", some "y"]]⟩ : Df).cols ∧
        c ∉ (⟨["a"], [[some "1"]]⟩ : Df).cols) ∧
      (align_columns ⟨["a"], [[some "1"]]⟩
        ⟨["a", "b"], [[some "x", some "y"]]⟩).2 ≠ ⟨["a"], [[some "1"]]⟩) :=
  ⟨by decide,
    C10_align_columns_mutates_old ⟨["a"], [[some "1"]]⟩
      ⟨["a", "b"], [[some "x", some "y"]]⟩ (by decide)⟩

/-- C5 counterexample: one normalization maps the cell `" None "` to the text
`"None"`, which a second normalization collapses to `NA`, so normalization is
not idempotent in general. -/
theorem C5_idempotence_counterexample :
    normalize_dataframe (normalize_dataframe [[PyVal.str " None "]]) ≠
      normalize_dataframe [[PyVal.str " None "]] ∧
    normalize_dataframe [[PyVal.str " None "]] = [[PyVal.str "None"]] ∧
    normalize_dataframe (normalize_dataframe [[PyVal.str " None "]]) =
      [[PyVal.na]] :=
  ⟨by decide, by decide, by decide⟩

/-- C5 (amended): normalization is idempotent on every dataset whose
normalized output contains no cell equal to one of the five null-token
strings; without that restriction a second pass can collapse a token-shaped
output (such as `"None"`, produced from `" None "`) to `NA`. -/
theorem C5_normalize_dataframe_idempotent_on_token_free_output
    (g : List (List PyVal))
    (h : ∀ row ∈ normalize_dataframe g, ∀ v ∈ row, ∀ s ∈ nullTokens,
      v ≠ .str s) :
    normalize_dataframe (normalize_dataframe g) = normalize_dataframe g := by
  unfold normalize_dataframe
  rw [List.map_map]
  apply List.map_congr_left
  intro row hrow
  show (row.map normalize_cell).map normalize_cell = row.map normalize_cell
  rw [List.map_map]
  apply List.map_congr_left
  intro v hv
  show normalize_cell (normalize_cell v) = normalize_cell v
  apply normalize_cell_idem
  intro sTok hs
  exact h (row.map normalize_cell) (List.mem_map_of_mem _ hrow)
    (normalize_cell v) (List.mem_map_of_mem _ hv) sTok hs

/-- Witness for C5 at a concrete input: a text cell and an `NA` cell whose
normalized forms are not null tokens. -/
theorem C5_normalize_dataframe_idempotent_on_token_free_output_witness :
    (∀ row ∈ normalize_dataframe [[PyVal.str " abc ", PyVal.na]],
      ∀ v ∈ row, ∀ s ∈ nullTokens, v ≠ .str s) ∧
    normalize_dataframe (normalize_dataframe [[PyVal.str " abc ", PyVal.na]]) =
      normalize_dataframe [[PyVal.str " abc ", PyVal.na]] :=
  ⟨by decide, C5_normalize_dataframe_idempotent_on_token_free_output
    [[PyVal.str " abc ", PyVal.na]] (by decide)⟩

/-- C6 counterexample: the whitespace-surrounded token `" none "` and the
upper-case `"NONE"` are not collapsed to `NA`: the replace step matches the
five tokens exactly, before trimming and case-sensitively, and the falling
through to the string branch keeps the trimmed text. -/
theorem C6_null_tokens_counterexample :
    normalize_dataframe [[PyVal.str " none ", PyVal.str "NONE"]] =
      [[PyVal.str "none", PyVal.str "NONE"]] ∧
    normalize_dataframe [[PyVal.str " none ", PyVal.str "NONE"]] ≠
      [[PyVal.na, PyVal.na]] :=
  ⟨by decide, by decide⟩

/-- C6 (amended): a cell is collapsed to `NA` when it is already `NA`, when
its raw text is exactly one of the five tokens `""`, `"None"`, `"none"`,
`"NULL"`, `"null"`, or when its text is whitespace-only (so it trims to
empty); other casings such as `"NONE"` and whitespace-surrounded tokens such
as `" none "` are not collapsed. -/
theorem C6_null_like_cells_collapse_to_na (g : List (List PyVal)) (i j : Nat)
    (v : PyVal) (hv : (g.get? i).bind (fun r => r.get? j) = some v)
    (h : v = .na ∨ ∃ t, v = .str t ∧
      (t ∈ nullTokens ∨ ∀ c ∈ t.data, pyWs c = true)) :
    ((normalize_dataframe g).get? i).bind (fun r => r.get? j) =
      some .na := by
  have hcell : normalize_cell v = .na := by
    rcases h with rfl | ⟨t, rfl, ht | ht⟩
    · rfl
    · simp only [normalize_cell]
      rw [if_pos ht]
    · by_cases htok : t ∈ nullTokens
      · simp only [normalize_cell]
        rw [if_pos htok]
      · rw [normalize_cell_str_not_token htok]
        apply normalize_str_empty
        show String.mk (stripChars t.data) = ""
        rw [stripChars_eq_nil_of_all_ws ht]
  cases hgi : g.get? i with
  | none =>
    rw [hgi] at hv
    exact Option.noConfusion hv
  | some row =>
    rw [hgi] at hv
    have hv2 : row.get? j = some v := hv
    show ((g.map (fun row => row.map normalize_cell)).get? i).bind
      (fun r => r.get? j) = some PyVal.na
    rw [List.get?_map, hgi]
    show (row.map normalize_cell).get? j = some PyVal.na
    rw [List.get?_map, hv2]
    show some (normalize_cell v) = some PyVal.na
    rw [hcell]

/-- Witness for C6 at concrete inputs: the exact token `"NULL"` and a
whitespace-only cell both normalize to `NA`. -/
theorem C6_null_like_cells_collapse_to_na_witness :
    ((normalize_dataframe [[PyVal.str "NULL", PyVal.str "  "]]).get? 0).bind
      (fun r => r.get? 0) = some PyVal.na ∧
    ((normalize_dataframe [[PyVal.str "NULL", PyVal.str "  "]]).get? 0).bind
      (fun r => r.get? 1) = some PyVal.na :=
  ⟨C6_null_like_cells_collapse_to_na [[PyVal.str "NULL", PyVal.str "  "]] 0 0
      (PyVal.str "NULL") (by decide)
      (Or.inr ⟨"NULL", rfl, Or.inl (by decide)⟩),
    C6_null_like_cells_collapse_to_na [[PyVal.str "NULL", PyVal.str "  "]] 0 1
      (PyVal.str "  ") (by decide)
      (Or.inr ⟨"  ", rfl, Or.inr (by decide)⟩)⟩

end DataNormalizer

end ExcelDiff
